import Mathlib

/-!
Verification of the structured-additive-IR scheduling substrate: a shallow
embedding of `transforms/rematerialize.cc` and of the sequence-analysis header
(`sequence.h`), with theorems checking the natural-language specification
against the embedded code.
-/

namespace Sair

/-- Model of `mlir::Value`: an opaque SSA value handle, identified by a number. -/
abbrev Value := Nat

/-- Model of `IteratorAttr`: either a rematerialization marker or a concrete
`(dimension, step)` pair (see `sair_attributes`, used by `rematerialize.cc`). -/
inductive Iter where
  | remat : Iter
  | concrete (dimension : Nat) (step : Int) : Iter
deriving DecidableEq, Repr

/-- `IteratorAttr::Rematerialize()`. -/
def Iter.rematFlag : Iter → Bool
  | .remat => true
  | .concrete _ _ => false

/-- `IteratorAttr::Dimension()`; meaningless (0) on a rematerialization marker,
mirroring the C++ precondition that it is only read on concrete iterators. -/
def Iter.dimension : Iter → Nat
  | .remat => 0
  | .concrete d _ => d

/-- `IteratorAttr::Step()`; meaningless (0) on a rematerialization marker. -/
def Iter.step : Iter → Int
  | .remat => 0
  | .concrete _ s => s

/-- Model of `LoopAttr`: a named logical loop with its iterator. -/
structure LoopAttr where
  name : String
  iter : Iter
deriving DecidableEq, Repr

/-- Model of `AccessPatternAttr`: a use-domain size together with the list of
accessed dimensions. -/
structure AccessPatternAttr where
  useDomainSize : Nat
  dims : List Nat
deriving DecidableEq, Repr

/-- `AccessPatternAttr::ShiftRight(offset, start_from)`: accessed dimensions at
or past `startFrom` are shifted right by `offset`, reflecting `offset`
dimensions being inserted at `startFrom` into the use domain. -/
def AccessPatternAttr.shiftRight (a : AccessPatternAttr) (offset startFrom : Nat) :
    AccessPatternAttr :=
  { useDomainSize := a.useDomainSize + offset,
    dims := a.dims.map (fun d => if startFrom ≤ d then d + offset else d) }

/-- `AccessPatternAttr::GetIdentity(ctx, n)`. -/
def AccessPatternAttr.getIdentity (n : Nat) : AccessPatternAttr :=
  { useDomainSize := n, dims := List.range n }

/-- The set bits of `DependencyMask()`, in ascending order as enumerated by
`llvm::SmallBitVector::set_bits()`. -/
def AccessPatternAttr.maskBits (a : AccessPatternAttr) : List Nat :=
  (List.range a.useDomainSize).filter (fun b => a.dims.contains b)

/-- Model of a range type (`RangeType`): either the range type over a
hyper-rectangular shape of the given rank, as built by
`RangeType::get(ctx, DomainShapeAttr::HyperRectangular(ctx, rank))`, or any
other range type, represented opaquely by a tag. -/
inductive SRangeType where
  | hyperRect (rank : Nat) : SRangeType
  | otherTy (tag : Nat) : SRangeType
deriving DecidableEq, Repr

/-- Model of `DomainShapeDim`: a range type plus a dependency pattern. -/
structure DomainShapeDim where
  rangeTy : SRangeType
  depPattern : AccessPatternAttr
deriving DecidableEq, Repr

/-- `DomainShapeDim::DependencyMask()` set bits in ascending order. -/
def DomainShapeDim.maskBits (d : DomainShapeDim) : List Nat :=
  d.depPattern.maskBits

/-- Model of `ValueType`: a Sair value type with a shape and an opaque
elemental type. -/
structure ValueType where
  shape : List DomainShapeDim
  elementType : Nat
deriving DecidableEq, Repr

/-- The operation kinds relevant to the transform: the three supported compute
kinds, the projection kind it creates, any other compute-op kind, and
non-compute operations. -/
inductive OpKind where
  | copy : OpKind
  | map : OpKind
  | mapReduce : OpKind
  | projAny : OpKind
  | otherCompute (tag : Nat) : OpKind
  | otherOp (tag : Nat) : OpKind
deriving DecidableEq, Repr

/-- Whether the kind models an operation implementing the `ComputeOp`
interface (visited by the collection walk). -/
def isComputeOp : OpKind → Bool
  | .copy => true
  | .map => true
  | .mapReduce => true
  | .otherCompute _ => true
  | .projAny => false
  | .otherOp _ => false

/-- A body block argument type: the `index` type or an opaque other type. -/
inductive BArgTy where
  | index : BArgTy
  | otherArg (tag : Nat) : BArgTy
deriving DecidableEq, Repr

/-- Model of an operation, exposing the fields `rematerialize.cc` reads and
writes: domain operands (for `sair.map_reduce`, `parallelRank` splits the
domain into parallel and reduction parts), access patterns, non-domain value
operands, domain shape, loop nest, result types/values, per-result memory
spaces and body block arguments. -/
structure Op where
  opId : Nat
  kind : OpKind
  domain : List Value
  parallelRank : Nat
  accessPatternArray : List AccessPatternAttr
  operands : List Value
  shape : List DomainShapeDim
  loopNest : Option (List LoopAttr)
  resultTypes : List ValueType
  resultIds : List Value
  memorySpaces : List (Option Int)
  bodyArgs : List BArgTy
deriving DecidableEq, Repr

/-- `SairMapReduceOp::parallel_domain()` (for other kinds the full domain). -/
def Op.parallelDomain (op : Op) : List Value :=
  match op.kind with
  | .mapReduce => op.domain.take op.parallelRank
  | _ => op.domain

/-- `SairMapReduceOp::reduction_domain()`. -/
def Op.reductionDomain (op : Op) : List Value :=
  match op.kind with
  | .mapReduce => op.domain.drop op.parallelRank
  | _ => []

/-- `ComputeOp::LoopNestLoops()`; only called on operations that carry a
loop-nest attribute. -/
def Op.loopNestLoops (op : Op) : List LoopAttr :=
  op.loopNest.getD []

/-- The free function `ParallelDomain(SairOp)` of `rematerialize.cc`
(lines 151-158): returns the domain for `sair.copy`/`sair.map`, the parallel
domain for `sair.map_reduce`, and reaches `llvm_unreachable` otherwise,
modelled as `none`. -/
def ParallelDomain (op : Op) : Option (List Value) :=
  match op.kind with
  | .copy => some op.domain
  | .map => some op.domain
  | .mapReduce => some (op.domain.take op.parallelRank)
  | _ => none

/-- Model of the `LoopBounds` record of `rematerialize.cc` (lines 41-51). -/
structure LoopBounds where
  range : Value
  step : Int
  dependentOn : List String
deriving DecidableEq, Repr

/-- The `main_loops` table, `llvm::DenseMap<mlir::Attribute, LoopBounds>`,
modelled as an association list keyed by loop name. -/
abbrev MainLoops := List (String × LoopBounds)

/-- `main_loops.find(name)`. -/
def lookupBounds (ml : MainLoops) (name : String) : Option LoopBounds :=
  (ml.find? (fun kv => kv.1 == name)).map (fun kv => kv.2)

/-- `AdaptTypesToShape` (lines 55-62): same elemental types, new shape. -/
def AdaptTypesToShape (types : List ValueType) (shape : List DomainShapeDim) :
    List ValueType :=
  types.map (fun t => { shape := shape, elementType := t.elementType })

/-- `AdaptAccessPatterns` (lines 67-78): shift every access pattern in the
array right by `numDims` starting from `insertPos`. -/
def AdaptAccessPatterns (arr : List AccessPatternAttr) (insertPos numDims : Nat) :
    List AccessPatternAttr :=
  arr.map (fun a => a.shiftRight numDims insertPos)

/-- The argument insertion of `TakeBodyAdjustArguments` (lines 82-90): insert
`num` block arguments of the `index` type at `pos`. -/
def insertBodyArgs (args : List BArgTy) (pos num : Nat) : List BArgTy :=
  args.take pos ++ List.replicate num BArgTy.index ++ args.drop pos

/-- Default value type used to model C++ out-of-bounds reads benignly. -/
def dfltValueType : ValueType := ⟨[], 0⟩

/-- `RecreateOp` for `sair.copy` (lines 96-106): appends the extra domain
dimensions, keeps the access patterns, operand and memory spaces; the shape of
a copy operation is the shape of its (single) result type. -/
def recreateCopy (op : Op) (resultTypes : List ValueType) (extraDomain : List Value)
    (loopNestAttr : List LoopAttr) (freshOpId : Nat) (freshIds : List Value) : Op :=
  { opId := freshOpId
    kind := .copy
    domain := op.domain ++ extraDomain
    parallelRank := (op.domain ++ extraDomain).length
    accessPatternArray := op.accessPatternArray
    operands := op.operands
    shape := (resultTypes.headD dfltValueType).shape
    loopNest := some loopNestAttr
    resultTypes := resultTypes.take 1
    resultIds := freshIds.take 1
    memorySpaces := op.memorySpaces
    bodyArgs := [] }

/-- `RecreateOp` for `sair.map` (lines 112-124): appends the extra domain
dimensions, keeps access patterns and inputs, installs the rebuilt domain
shape, and moves the body with one `index` argument inserted per extra
dimension at the end of the original domain arguments. -/
def recreateMap (op : Op) (resultTypes : List ValueType) (extraDomain : List Value)
    (loopNestAttr : List LoopAttr) (domainShape : List DomainShapeDim)
    (freshOpId : Nat) (freshIds : List Value) : Op :=
  { opId := freshOpId
    kind := .map
    domain := op.domain ++ extraDomain
    parallelRank := (op.domain ++ extraDomain).length
    accessPatternArray := op.accessPatternArray
    operands := op.operands
    shape := domainShape
    loopNest := some loopNestAttr
    resultTypes := resultTypes
    resultIds := freshIds
    memorySpaces := op.memorySpaces
    bodyArgs := insertBodyArgs op.bodyArgs op.domain.length extraDomain.length }

/-- `RecreateOp` for `sair.map_reduce` (lines 131-148): appends the extra
dimensions to the parallel domain, keeps the reduction domain, shifts the
access patterns to account for the insertion, and moves the body with `index`
arguments inserted at the end of the original parallel domain arguments. -/
def recreateMapReduce (op : Op) (resultTypes : List ValueType) (extraDomain : List Value)
    (loopNestAttr : List LoopAttr) (domainShape : List DomainShapeDim)
    (freshOpId : Nat) (freshIds : List Value) : Op :=
  { opId := freshOpId
    kind := .mapReduce
    domain := (op.parallelDomain ++ extraDomain) ++ op.reductionDomain
    parallelRank := (op.parallelDomain ++ extraDomain).length
    accessPatternArray :=
      AdaptAccessPatterns op.accessPatternArray op.parallelDomain.length extraDomain.length
    operands := op.operands
    shape := domainShape
    loopNest := some loopNestAttr
    resultTypes := resultTypes
    resultIds := freshIds
    memorySpaces := op.memorySpaces
    bodyArgs := insertBodyArgs op.bodyArgs op.parallelDomain.length extraDomain.length }

/-- First sweep of `Rematerialize` (lines 180-185), with the running index
made explicit: collects the indices, counted from `i`, of loop-nest entries
that carry a rematerialization marker. -/
def rematPositionsFrom (nest : List LoopAttr) (i : Nat) : List Nat :=
  match nest with
  | [] => []
  | l :: rest =>
    if l.iter.rematFlag then i :: rematPositionsFrom rest (i + 1)
    else rematPositionsFrom rest (i + 1)

/-- First sweep of `Rematerialize` (lines 180-185): the positions of loop-nest
entries that carry a rematerialization marker (the `loops` vector). -/
def rematPositions (nest : List LoopAttr) : List Nat :=
  rematPositionsFrom nest 0

/-- Second sweep of `Rematerialize` (lines 190-216): rebuilds the loop-nest
attribute and collects the extra domain ranges, threading the insertion
`position` counter that starts at the parallel-domain boundary. Materialized
entries at or past the boundary are shifted right by `numRemat`; each
rematerialized entry receives the next free position and its recorded step.
A missing bounds entry (the C++ assertion at lines 210-211) yields `none`. -/
def rebuildLoopNest (ml : MainLoops) (numPar numRemat : Nat) :
    List LoopAttr → Nat → Option (List LoopAttr × List Value)
  | [], _ => some ([], [])
  | l :: rest, pos =>
    match l.iter with
    | .concrete d s =>
      let l' : LoopAttr :=
        if numPar ≤ d then ⟨l.name, .concrete (d + numRemat) s⟩ else l
      (rebuildLoopNest ml numPar numRemat rest pos).map (fun p => (l' :: p.1, p.2))
    | .remat =>
      match lookupBounds ml l.name with
      | none => none
      | some b =>
        (rebuildLoopNest ml numPar numRemat rest (pos + 1)).map
          (fun p => (⟨l.name, .concrete pos b.step⟩ :: p.1, b.range :: p.2))

/-- Third sweep of `Rematerialize` (lines 231-252): the shape dimension built
for the rematerialized loop at position `loopIdx` of the rebuilt loop nest.
Dependency names are resolved to the dependee's current position in the
updated loop nest; a name missing from the loop nest (the C++ assertion at
lines 244-246) yields `none`. -/
def rematShapeDim (ml : MainLoops) (newNest : List LoopAttr) (innerTy : SRangeType)
    (loopIdx : Nat) : Option DomainShapeDim := do
  let loop ← newNest[loopIdx]?
  let bounds ← lookupBounds ml loop.name
  let deps ← bounds.dependentOn.mapM (fun dependee =>
    (newNest.find? (fun attr => attr.name == dependee)).map (fun attr => attr.iter.dimension))
  pure ⟨innerTy, { useDomainSize := loop.iter.dimension, dims := deps }⟩

/-- Lines 256-260: trailing (non-parallel) shape dimensions of the original
operation, with the common inner range type and their dependency patterns
shifted right by `numRemat` starting from the parallel boundary. -/
def shiftedTrailingDims (origDims : List DomainShapeDim) (numPar numRemat : Nat)
    (innerTy : SRangeType) : List DomainShapeDim :=
  (origDims.drop numPar).map (fun dim => ⟨innerTy, dim.depPattern.shiftRight numRemat numPar⟩)

/-- The projection created for result `i` (lines 288-306): a `sair.proj_any`
over the replacement's result `i`, with the original parallel domain plus the
extra (rematerialized) domain, an identity access pattern, the replacement
result's shape, the original result type, and the original result's memory
space reattached. -/
def makeProjOp (op : Op) (newOp : Op) (parallelDomain : List Value)
    (extraDomain : List Value) (numPar numRemat : Nat) (i : Nat)
    (freshOpId : Nat) (freshVal : Value) : Op :=
  { opId := freshOpId
    kind := .projAny
    domain := parallelDomain ++ extraDomain
    parallelRank := parallelDomain.length
    accessPatternArray := [AccessPatternAttr.getIdentity (numPar + numRemat)]
    operands := [newOp.resultIds.getD i 0]
    shape := (newOp.resultTypes.getD i dfltValueType).shape
    loopNest := none
    resultTypes := [op.resultTypes.getD i dfltValueType]
    resultIds := [freshVal]
    memorySpaces :=
      match op.memorySpaces.getD i none with
      | some m => ([(none : Option Int)]).set i (some m)
      | none => [none]
    bodyArgs := [] }

/-- The failure modes of the transform, as named by the specification: a
rematerialized loop name absent from the bounds table or a dependency loop
missing from the loop nest (the C++ assertions), and a pending operation of a
kind outside the supported variants (`llvm_unreachable` in `ParallelDomain`
and the `TypeSwitch` default). -/
inductive RematError where
  | malformedProgram : RematError
  | unsupportedOpKind : RematError
deriving DecidableEq, Repr

/-- The artifacts `Rematerialize` (lines 165-311) computes for one operation
before touching the program: the rebuilt domain shape, the replacement
operation, the projections, and the use-substitution from original result
values to projection results. -/
structure RematPieces where
  domainShape : List DomainShapeDim
  newOp : Op
  projOps : List Op
  sub : List (Value × Value)
deriving DecidableEq, Repr

/-- The per-operation body of `Rematerialize` (lines 165-306), computing the
replacement pieces. `freshOpId`/`freshVal` supply identities for the created
operations and their results. Follows the source exactly: parallel-domain
query (failing on unsupported kinds), the three sweeps, result re-typing,
kind dispatch for the replacement, and projection creation. -/
def rematPieces (ml : MainLoops) (op : Op) (freshOpId : Nat) (freshVal : Value) :
    Except RematError RematPieces :=
  match ParallelDomain op with
  | none => .error RematError.unsupportedOpKind
  | some parallelDomain =>
    let numPar := parallelDomain.length
    let nest := op.loopNestLoops
    let loops := rematPositions nest
    let numRemat := loops.length
    match rebuildLoopNest ml numPar numRemat nest numPar with
    | none => .error RematError.malformedProgram
    | some (newNest, extraDomain) =>
      let origDims := op.shape
      let numOrigDims := origDims.length
      let innerTy := SRangeType.hyperRect (numOrigDims + numRemat)
      match loops.mapM (rematShapeDim ml newNest innerTy) with
      | none => .error RematError.malformedProgram
      | some rematDims =>
        let domainShapeDims :=
          origDims.take numPar ++ rematDims ++
            shiftedTrailingDims origDims numPar numRemat innerTy
        let resultShape := domainShapeDims.take (numPar + numRemat)
        let newTypes := AdaptTypesToShape op.resultTypes resultShape
        let freshIds := (List.range newTypes.length).map (fun j => freshVal + j)
        let newOpRes : Except RematError Op :=
          match op.kind with
          | .copy =>
            .ok (recreateCopy op newTypes extraDomain newNest freshOpId freshIds)
          | .map =>
            .ok (recreateMap op newTypes extraDomain newNest domainShapeDims freshOpId
              freshIds)
          | .mapReduce =>
            .ok (recreateMapReduce op newTypes extraDomain newNest domainShapeDims freshOpId
              freshIds)
          | _ => .error RematError.unsupportedOpKind
        match newOpRes with
        | .error e => .error e
        | .ok newOp =>
          let projOps := (List.range newTypes.length).map (fun i =>
            makeProjOp op newOp parallelDomain extraDomain numPar numRemat i
              (freshOpId + 1 + i) (freshVal + newTypes.length + i))
          let sub := (List.range newTypes.length).map (fun i =>
            (op.resultIds.getD i 0, freshVal + newTypes.length + i))
          .ok ⟨domainShapeDims, newOp, projOps, sub⟩

/-- A program: the operation list in program order plus fresh-identity
counters for values and operations created by the builder. -/
structure Program where
  ops : List Op
  nextVal : Value
  nextOpId : Nat
deriving DecidableEq, Repr

/-- `mlir::Value::replaceAllUsesWith`, as a substitution over value handles. -/
def substValue (sub : List (Value × Value)) (v : Value) : Value :=
  match sub.find? (fun kv => kv.1 == v) with
  | some kv => kv.2
  | none => v

/-- Applies the use-substitution to all value uses of one operation. -/
def substOpUses (sub : List (Value × Value)) (op : Op) : Op :=
  { op with
    operands := op.operands.map (substValue sub)
    domain := op.domain.map (substValue sub) }

/-- `Rematerialize` (lines 165-311) on the program: on failure the program is
returned untouched (every failure path of the source precedes the first
mutation); on success the operation at `opIdx` is replaced, in place, by the
replacement followed by one projection per result, and every use of an
original result is redirected to the corresponding projection's result. -/
def Rematerialize (ml : MainLoops) (prog : Program) (opIdx : Nat) :
    Option RematError × Program :=
  match prog.ops[opIdx]? with
  | none => (some RematError.malformedProgram, prog)
  | some op =>
    match rematPieces ml op prog.nextOpId prog.nextVal with
    | .error e => (some e, prog)
    | .ok pieces =>
      let numResults := pieces.projOps.length
      let newOps :=
        (prog.ops.take opIdx ++ (pieces.newOp :: pieces.projOps) ++ prog.ops.drop (opIdx + 1)).map
          (substOpUses pieces.sub)
      (none,
       { ops := newOps
         nextVal := prog.nextVal + 2 * numResults
         nextOpId := prog.nextOpId + 1 + numResults })

/-- The bounds recorded for a concrete loop-nest entry by the collection walk
(lines 332-343): range is the owning operation's domain value at the
iterator's dimension, step is the iterator's step, and the dependencies are
the names of the loop-nest entries at the dimension's dependency-mask bits. -/
def entryBounds (op : Op) (nest : List LoopAttr) (loop : LoopAttr) : LoopBounds :=
  let dimension := loop.iter.dimension
  let range := op.domain.getD dimension 0
  let depBits := (op.shape.getD dimension ⟨SRangeType.hyperRect 0, ⟨0, []⟩⟩).maskBits
  let dependsOn := depBits.filterMap (fun b => (nest[b]?).map (fun l => l.name))
  ⟨range, loop.iter.step, dependsOn⟩

/-- `llvm::DenseMap::try_emplace`: records the binding only if the key is not
yet present. -/
def tryEmplace (ml : MainLoops) (name : String) (b : LoopBounds) : MainLoops :=
  if (ml.find? (fun kv => kv.1 == name)).isSome then ml else ml ++ [(name, b)]

/-- `llvm::DenseSet::insert` on operation identities, kept in arrival order. -/
def pendingInsert (s : List Nat) (opid : Nat) : List Nat :=
  if opid ∈ s then s else s ++ [opid]

/-- One loop-nest entry of the collection walk (lines 325-344): a
rematerialization marker adds the owning operation to the pending set, a
concrete iterator records its bounds if the name is new. -/
def collectEntry (op : Op) (nest : List LoopAttr) (st : MainLoops × List Nat)
    (loop : LoopAttr) : MainLoops × List Nat :=
  if loop.iter.rematFlag then
    (st.1, pendingInsert st.2 op.opId)
  else
    (tryEmplace st.1 loop.name (entryBounds op nest loop), st.2)

/-- The walk body for one operation (lines 321-345): compute operations with a
loop-nest attribute contribute their entries in order. -/
def collectFromOp (st : MainLoops × List Nat) (op : Op) : MainLoops × List Nat :=
  if isComputeOp op.kind then
    match op.loopNest with
    | none => st
    | some nest => nest.foldl (collectEntry op nest) st
  else st

/-- The single collection walk of `RematerializeInProgram` (lines 314-345),
over the program's operations in program order. -/
def collectLoopBounds (ops : List Op) : MainLoops × List Nat :=
  ops.foldl collectFromOp ([], [])

/-- The value `rematPieces` computes on the success path, given the results of
the parallel-domain query, the loop-nest rebuilding sweep and the
rematerialized shape dimensions; used to characterize `rematPieces` in the
theorems below. -/
def piecesFormula (op : Op) (fo : Nat) (fv : Value)
    (pd : List Value) (newNest : List LoopAttr) (extras : List Value)
    (rds : List DomainShapeDim) : RematPieces :=
  let numRemat := (rematPositions op.loopNestLoops).length
  let innerTy := SRangeType.hyperRect (op.shape.length + numRemat)
  let dsd := op.shape.take pd.length ++ rds ++
    shiftedTrailingDims op.shape pd.length numRemat innerTy
  let newTypes := AdaptTypesToShape op.resultTypes (dsd.take (pd.length + numRemat))
  let freshIds := (List.range newTypes.length).map (fun j => fv + j)
  let newOp :=
    match op.kind with
    | .copy => recreateCopy op newTypes extras newNest fo freshIds
    | .mapReduce => recreateMapReduce op newTypes extras newNest dsd fo freshIds
    | _ => recreateMap op newTypes extras newNest dsd fo freshIds
  ⟨dsd, newOp,
   (List.range newTypes.length).map (fun i =>
     makeProjOp op newOp pd extras pd.length numRemat i (fo + 1 + i)
       (fv + newTypes.length + i)),
   (List.range newTypes.length).map (fun i =>
     (op.resultIds.getD i 0, fv + newTypes.length + i))⟩

/-- Specification-side reading of the collection walk (spec §4.1): within one
loop nest, the bounds recorded for `name` come from the first entry, in
order, that carries `name` with a concrete iterator. -/
def firstConcreteBoundsInNest (op : Op) (nest : List LoopAttr) (name : String) :
    List LoopAttr → Option LoopBounds
  | [] => none
  | loop :: rest =>
    if loop.iter.rematFlag then firstConcreteBoundsInNest op nest name rest
    else if loop.name == name then some (entryBounds op nest loop)
    else firstConcreteBoundsInNest op nest name rest

/-- Specification-side reading of the collection walk (spec §4.1): the bounds
of a loop name are captured from the first operation in program order where
the loop appears with a concrete iterator; later occurrences never overwrite
them. -/
def specFirstBounds (ops : List Op) (name : String) : Option LoopBounds :=
  match ops with
  | [] => none
  | op :: rest =>
    let here :=
      if isComputeOp op.kind then
        match op.loopNest with
        | some nest => firstConcreteBoundsInNest op nest name nest
        | none => none
      else none
    match here with
    | some b => some b
    | none => specFirstBounds rest name

/-! ### The sequence-analysis header (`sequence.h`) -/

/-- `ConcreteOpSet` (sequence.h lines 34-77): a set of operations that
preserves insertion order, backed by `llvm::SetVector`; modelled as a
duplicate-free list of operation identities. -/
structure ConcreteOpSet where
  contents : List Nat
deriving DecidableEq, Repr

/-- `ConcreteOpSet::insert` (line 40): inserts and reports whether the
operation was newly added (`llvm::SetVector::insert`). -/
def ConcreteOpSet.insert (s : ConcreteOpSet) (op : Nat) : Bool × ConcreteOpSet :=
  if op ∈ s.contents then (false, s) else (true, ⟨s.contents ++ [op]⟩)

/-- `ConcreteOpSet::contains` (line 58). -/
def ConcreteOpSet.containsOp (s : ConcreteOpSet) (op : Nat) : Bool :=
  s.contents.contains op

/-- `ConcreteOpSet::Ops()` (lines 67-70): the elements in insertion order. -/
def ConcreteOpSet.ops (s : ConcreteOpSet) : List Nat :=
  s.contents

/-- `ConcreteOpSet::erase` (line 73), via `llvm::SetVector::remove`: removes
the element, keeping the relative order of the others. -/
def ConcreteOpSet.erase (s : ConcreteOpSet) (op : Nat) : ConcreteOpSet :=
  ⟨s.contents.erase op⟩

/-- Building a `ConcreteOpSet` by inserting the elements of a list in order. -/
def ConcreteOpSet.ofList (l : List Nat) : ConcreteOpSet :=
  l.foldl (fun s x => (s.insert x).2) ⟨[]⟩

/-- Specification-side first-occurrence deduplication: keeps the first
occurrence of each element, in order of first insertion. -/
def firstOccurrenceDedup : List Nat → List Nat
  | [] => []
  | x :: xs => x :: firstOccurrenceDedup (xs.filter (fun y => y ≠ x))
termination_by l => l.length
decreasing_by simpa using Nat.lt_succ_of_le (List.length_filter_le _ xs)

/-- Model of `SequenceAnalysis`'s ordered index `sequenced_ops_`
(sequence.h line 351, a `std::multimap<int64_t, ComputeOp>`): key/operation
pairs listed in the map's deterministic iteration order. -/
structure SequenceAnalysis where
  sequencedOps : List (Int × Nat)
deriving DecidableEq, Repr

/-- Linear scan for the position of the entry holding `o`, counting from `i`. -/
def findOpIndex : List (Int × Nat) → Nat → Nat → Option Nat
  | [], _, _ => none
  | kv :: rest, o, i => if kv.2 == o then some i else findOpIndex rest o (i + 1)

/-- `SequenceAnalysis::FindSequencedOp`. Modelled from the spec: the
implementation is not under src/; the header's contract (lines 343-344,
"returns the iterator pointing to the given op in the sequence map") is
modelled as the position of the entry holding `op` in the iteration order. -/
def SequenceAnalysis.findSequencedOp (a : SequenceAnalysis) (op : Nat) : Option Nat :=
  findOpIndex a.sequencedOps op 0

/-- `SequenceAnalysis::PrevOp` (sequence.h lines 183-189): null in, null out;
otherwise the entry immediately before `op` in the iteration order, or null
when `op` heads the order. The C++ assertion that the operation belongs to
the analysis is modelled by returning null. -/
def SequenceAnalysis.prevOp (a : SequenceAnalysis) (op : Option Nat) : Option Nat :=
  match op with
  | none => none
  | some o =>
    match a.findSequencedOp o with
    | none => none
    | some i =>
      if i = 0 then none else (a.sequencedOps[i - 1]?).map (fun kv => kv.2)

/-- `SequenceAnalysis::NextOp` (sequence.h lines 193-199): null in, null out;
otherwise the entry immediately after `op`, or null when `op` is last. -/
def SequenceAnalysis.nextOp (a : SequenceAnalysis) (op : Option Nat) : Option Nat :=
  match op with
  | none => none
  | some o =>
    match a.findSequencedOp o with
    | none => none
    | some i => (a.sequencedOps[i + 1]?).map (fun kv => kv.2)

/-- An operation's sequencing-relevant attributes: its identity and its
optional explicit "sequence" hint. -/
structure SOp where
  opId : Nat
  hint : Option Int
deriving DecidableEq, Repr

/-- The state `AssignInferred` acts on: the (const) analysis plus the
program's operations carrying their "sequence" attributes. -/
structure SeqState where
  analysis : SequenceAnalysis
  prog : List SOp
deriving DecidableEq, Repr

/-- `SequenceAnalysis::AssignInferred` (sequence.h line 148). Modelled from
the spec: the implementation is not under src/; §4.3 says it "rewrites every
operation's stored hint to match its current position (producing a
contiguous numbering) without changing relative order; idempotent". Every
operation present in the analysis receives its current position as its hint;
the analysis itself is `const` and therefore returned unchanged. -/
def AssignInferred (st : SeqState) : SeqState :=
  { st with
    prog := st.prog.map (fun sop =>
      match st.analysis.findSequencedOp sop.opId with
      | some i => { sop with hint := some (Int.ofNat i) }
      | none => sop) }

/-- `SequenceAnalysis::AllOps` iteration order (sequence.h lines 215-313),
restricted to the shape the claims constrain. Modelled from the spec:
`ImplicitlySequencedOps` is not under src/; §4.5 says the iteration visits
each explicitly sequenced operation in order, followed by the implicitly
sequenced operations pinned after it by use-def adjacency — a sub-order that
depends only on use-def chains, supplied here as `implicitAfter`. -/
def allOpsOrder (a : SequenceAnalysis) (implicitAfter : Nat → List Nat) : List Nat :=
  (a.sequencedOps.map (fun kv => kv.2 :: implicitAfter kv.2)).flatten

/-- A use-def edge between operations; `feedback` marks a feedback
operation's prior-iteration read, exempt from the acyclicity requirement. -/
structure UDEdge where
  src : Nat
  dst : Nat
  feedback : Bool
deriving DecidableEq, Repr

/-- The use-def graph over a program's compute operations. -/
structure UDGraph where
  nodes : List Nat
  edges : List UDEdge
deriving DecidableEq, Repr

/-- The non-feedback dependency relation of the graph. -/
def UDGraph.depB (g : UDGraph) (u v : Nat) : Bool :=
  g.edges.any (fun e => !e.feedback && e.src == u && e.dst == v)

/-- A use-def cycle not mediated by a feedback edge: a nonempty vertex list
with a non-feedback dependency between consecutive vertices and from the
last vertex back to the first. -/
def UDGraph.IsCycle (g : UDGraph) (p : List Nat) : Prop :=
  p ≠ [] ∧ List.Chain' (fun u v => g.depB u v = true) p ∧
    g.depB (p.getLastD 0) (p.headD 0) = true

/-- One step of the cycle check: keep the operations that still have an
incoming non-feedback dependency from the remaining set, removing the
sources. -/
def peelStep (g : UDGraph) (s : List Nat) : List Nat :=
  s.filter (fun v => s.any (fun u => g.depB u v))

/-- Iterated peeling with fuel, stopping at a fixpoint. -/
def peel (g : UDGraph) : Nat → List Nat → List Nat
  | 0, s => s
  | fuel + 1, s =>
    let s' := peelStep g s
    if s'.length = s.length then s else peel g fuel s'

/-- `SequenceAnalysis::Create` (sequence.h lines 133-137). Modelled from the
spec: the implementation is not under src/; §4.3 requires construction to
fail — returning no analysis at all — exactly when the use-def graph minus
feedback edges has a cycle, detected by iteratively removing operations with
no remaining non-feedback predecessor. The particular total order built on
success is not constrained by the claims and is modelled as program order. -/
def SequenceAnalysis.create (g : UDGraph) : Option SequenceAnalysis :=
  if peel g g.nodes.length g.nodes = [] then
    some ⟨g.nodes.enum.map (fun p => ((p.1 : Int), p.2))⟩
  else none

/-- A non-feedback predecessor of `v` inside `r`, when one exists. -/
def predIn (g : UDGraph) (r : List Nat) (v : Nat) : Nat :=
  (r.find? (fun u => g.depB u v)).getD 0

/-- The backward walk along non-feedback predecessors inside `r`. -/
def walkBack (g : UDGraph) (r : List Nat) (v0 : Nat) : Nat → Nat
  | 0 => v0
  | n + 1 => predIn g r (walkBack g r v0 n)

/-! ### Concrete instances used by the witnesses and counterexamples -/

/-- Default shape dimension for out-of-bounds reads in statements. -/
def dfltShapeDim : DomainShapeDim := ⟨SRangeType.hyperRect 0, ⟨0, []⟩⟩

/-- A one-dimensional value type over a hyper-rectangular shape. -/
def exValueType : ValueType := ⟨[⟨SRangeType.hyperRect 1, ⟨0, []⟩⟩], 3⟩

/-- A pending operation of an unsupported kind. -/
def exOpUnsupported : Op :=
  { opId := 0, kind := .otherCompute 0, domain := [5], parallelRank := 1,
    accessPatternArray := [], operands := [],
    shape := [⟨SRangeType.hyperRect 1, ⟨0, []⟩⟩],
    loopNest := some [⟨"i", .remat⟩],
    resultTypes := [exValueType], resultIds := [50], memorySpaces := [none],
    bodyArgs := [] }

/-- A program holding only the unsupported pending operation. -/
def exProgUnsupported : Program := ⟨[exOpUnsupported], 100, 10⟩

/-- A copy operation with one materialized loop `a` and one pending loop `i`. -/
def exC1Op : Op :=
  { opId := 0, kind := .copy, domain := [5], parallelRank := 1,
    accessPatternArray := [⟨1, [0]⟩], operands := [40],
    shape := [⟨SRangeType.hyperRect 1, ⟨0, []⟩⟩],
    loopNest := some [⟨"a", .concrete 0 1⟩, ⟨"i", .remat⟩],
    resultTypes := [exValueType], resultIds := [50], memorySpaces := [none],
    bodyArgs := [] }

/-- A consumer reading the copy's result (value 50). -/
def exC1Consumer : Op :=
  { opId := 1, kind := .map, domain := [5, 7], parallelRank := 2,
    accessPatternArray := [⟨2, [0, 1]⟩], operands := [50],
    shape := [⟨SRangeType.hyperRect 2, ⟨0, []⟩⟩, ⟨SRangeType.hyperRect 2, ⟨1, []⟩⟩],
    loopNest := some [⟨"a", .concrete 0 1⟩, ⟨"i", .concrete 1 1⟩],
    resultTypes := [exValueType], resultIds := [51], memorySpaces := [none],
    bodyArgs := [.otherArg 0] }

/-- A program with the pending copy and its consumer. -/
def exC1Prog : Program := ⟨[exC1Op, exC1Consumer], 100, 10⟩

/-- Bounds: loop `a` has range 5, loop `i` has range 7, both step 1. -/
def exC1MainLoops : MainLoops := [("a", ⟨5, 1, []⟩), ("i", ⟨7, 1, []⟩)]

/-- A map-reduce operation with one parallel dimension, one reduction
dimension whose descriptor carries a non-hyper-rectangular range type, and a
pending loop `i`. -/
def exC6Op : Op :=
  { opId := 0, kind := .mapReduce, domain := [5, 6], parallelRank := 1,
    accessPatternArray := [⟨1, [0]⟩], operands := [40, 41],
    shape := [⟨SRangeType.hyperRect 1, ⟨0, []⟩⟩, ⟨SRangeType.otherTy 7, ⟨1, [0]⟩⟩],
    loopNest := some [⟨"a", .concrete 0 1⟩, ⟨"i", .remat⟩, ⟨"rl", .concrete 1 1⟩],
    resultTypes := [exValueType], resultIds := [50], memorySpaces := [none],
    bodyArgs := [.otherArg 0] }

/-- A program holding only the map-reduce operation. -/
def exC6Prog : Program := ⟨[exC6Op], 100, 10⟩

/-- Bounds for the pending loop of `exC6Op`. -/
def exC6MainLoops : MainLoops := [("i", ⟨7, 1, []⟩)]

/-- A map operation whose loop nest has two pending loops `i` and `j`. -/
def exC4Op : Op :=
  { opId := 0, kind := .map, domain := [], parallelRank := 0,
    accessPatternArray := [], operands := [],
    shape := [],
    loopNest := some [⟨"i", .remat⟩, ⟨"j", .remat⟩],
    resultTypes := [], resultIds := [], memorySpaces := [], bodyArgs := [] }

/-- Bounds where `j` depends on `i`. -/
def exC4MainLoops : MainLoops := [("i", ⟨7, 1, []⟩), ("j", ⟨8, 1, ["i"]⟩)]

/-- A loop nest mixing materialized entries on both sides of the parallel
boundary with two pending entries. -/
def exNestC5 : List LoopAttr :=
  [⟨"a", .concrete 0 1⟩, ⟨"i", .remat⟩, ⟨"b", .concrete 1 2⟩, ⟨"j", .remat⟩]

/-- Bounds for the two pending loops of `exNestC5`. -/
def exMainLoopsC5 : MainLoops := [("i", ⟨7, 1, []⟩), ("j", ⟨8, 2, []⟩)]

/-! ### Lemmas about the loop-nest rebuilding sweep -/

theorem rebuildLoopNest_nil (ml : MainLoops) (numPar numRemat pos : Nat) :
    rebuildLoopNest ml numPar numRemat [] pos = some ([], []) := rfl

theorem rebuildLoopNest_cons_concrete (ml : MainLoops) (numPar numRemat : Nat)
    (hd : LoopAttr) (rest : List LoopAttr) (pos : Nat) (d : Nat) (s : Int)
    (hhd : hd.iter = .concrete d s) :
    rebuildLoopNest ml numPar numRemat (hd :: rest) pos =
      (rebuildLoopNest ml numPar numRemat rest pos).map
        (fun p => ((if numPar ≤ d then ⟨hd.name, .concrete (d + numRemat) s⟩ else hd) :: p.1,
          p.2)) := by
  simp [rebuildLoopNest, hhd]

theorem rebuildLoopNest_cons_remat_some (ml : MainLoops) (numPar numRemat : Nat)
    (hd : LoopAttr) (rest : List LoopAttr) (pos : Nat) (b : LoopBounds)
    (hhd : hd.iter = .remat) (hb : lookupBounds ml hd.name = some b) :
    rebuildLoopNest ml numPar numRemat (hd :: rest) pos =
      (rebuildLoopNest ml numPar numRemat rest (pos + 1)).map
        (fun p => (⟨hd.name, .concrete pos b.step⟩ :: p.1, b.range :: p.2)) := by
  simp [rebuildLoopNest, hhd, hb]

theorem rebuildLoopNest_cons_remat_none (ml : MainLoops) (numPar numRemat : Nat)
    (hd : LoopAttr) (rest : List LoopAttr) (pos : Nat)
    (hhd : hd.iter = .remat) (hb : lookupBounds ml hd.name = none) :
    rebuildLoopNest ml numPar numRemat (hd :: rest) pos = none := by
  simp [rebuildLoopNest, hhd, hb]

theorem rebuildLoopNest_isSome (ml : MainLoops) (numPar numRemat : Nat)
    (nest : List LoopAttr) (pos : Nat)
    (h : ∀ l ∈ nest, l.iter.rematFlag = true → (lookupBounds ml l.name).isSome) :
    (rebuildLoopNest ml numPar numRemat nest pos).isSome := by
  induction nest generalizing pos with
  | nil => simp [rebuildLoopNest_nil]
  | cons hd rest ih =>
    have hrest : ∀ x ∈ rest, x.iter.rematFlag = true → (lookupBounds ml x.name).isSome :=
      fun x hx => h x (List.mem_cons_of_mem _ hx)
    cases hhd : hd.iter with
    | concrete d s =>
      rw [rebuildLoopNest_cons_concrete ml numPar numRemat hd rest pos d s hhd]
      simpa using ih pos hrest
    | remat =>
      have hsome : (lookupBounds ml hd.name).isSome := by
        apply h hd (List.mem_cons_self _ _)
        simp [hhd, Iter.rematFlag]
      obtain ⟨b, hb⟩ := Option.isSome_iff_exists.mp hsome
      rw [rebuildLoopNest_cons_remat_some ml numPar numRemat hd rest pos b hhd hb]
      simpa using ih (pos + 1) hrest

theorem rebuildLoopNest_length (ml : MainLoops) (numPar numRemat : Nat)
    (nest : List LoopAttr) (pos : Nat) (nest' : List LoopAttr) (extras : List Value)
    (h : rebuildLoopNest ml numPar numRemat nest pos = some (nest', extras)) :
    nest'.length = nest.length ∧
      extras.length = nest.countP (fun l => l.iter.rematFlag) := by
  induction nest generalizing pos nest' extras with
  | nil =>
    rw [rebuildLoopNest_nil] at h
    injection h with h
    obtain ⟨h1, h2⟩ := Prod.mk.injEq .. ▸ h
    simp [← h1, ← h2]
  | cons hd rest ih =>
    cases hhd : hd.iter with
    | concrete d s =>
      rw [rebuildLoopNest_cons_concrete ml numPar numRemat hd rest pos d s hhd] at h
      cases hrec : rebuildLoopNest ml numPar numRemat rest pos with
      | none => rw [hrec] at h; exact absurd h (by simp)
      | some p =>
        obtain ⟨ns, ex⟩ := p
        rw [hrec, Option.map_some'] at h
        injection h with h
        obtain ⟨h1, h2⟩ := Prod.mk.injEq .. ▸ h
        obtain ⟨ih1, ih2⟩ := ih pos ns ex hrec
        subst h1 h2
        refine ⟨by simp [ih1], ?_⟩
        simp [List.countP_cons, hhd, Iter.rematFlag, ih2]
    | remat =>
      cases hb : lookupBounds ml hd.name with
      | none =>
        rw [rebuildLoopNest_cons_remat_none ml numPar numRemat hd rest pos hhd hb] at h
        exact absurd h (by simp)
      | some b =>
        rw [rebuildLoopNest_cons_remat_some ml numPar numRemat hd rest pos b hhd hb] at h
        cases hrec : rebuildLoopNest ml numPar numRemat rest (pos + 1) with
        | none => rw [hrec] at h; exact absurd h (by simp)
        | some p =>
          obtain ⟨ns, ex⟩ := p
          rw [hrec, Option.map_some'] at h
          injection h with h
          obtain ⟨h1, h2⟩ := Prod.mk.injEq .. ▸ h
          obtain ⟨ih1, ih2⟩ := ih (pos + 1) ns ex hrec
          subst h1 h2
          refine ⟨by simp [ih1], ?_⟩
          simp [List.countP_cons, hhd, Iter.rematFlag, ih2]

theorem rebuildLoopNest_concrete_entry (ml : MainLoops) (numPar numRemat : Nat)
    (nest : List LoopAttr) (pos : Nat) (nest' : List LoopAttr) (extras : List Value)
    (h : rebuildLoopNest ml numPar numRemat nest pos = some (nest', extras))
    (i : Nat) (l : LoopAttr) (hi : nest[i]? = some l) (d : Nat) (s : Int)
    (hl : l.iter = .concrete d s) :
    nest'[i]? = some (if numPar ≤ d then ⟨l.name, .concrete (d + numRemat) s⟩ else l) := by
  induction nest generalizing pos nest' extras i with
  | nil => simp at hi
  | cons hd rest ih =>
    cases hhd : hd.iter with
    | concrete d0 s0 =>
      rw [rebuildLoopNest_cons_concrete ml numPar numRemat hd rest pos d0 s0 hhd] at h
      cases hrec : rebuildLoopNest ml numPar numRemat rest pos with
      | none => rw [hrec] at h; exact absurd h (by simp)
      | some p =>
        obtain ⟨ns, ex⟩ := p
        rw [hrec, Option.map_some'] at h
        injection h with h
        obtain ⟨h1, h2⟩ := Prod.mk.injEq .. ▸ h
        subst h1 h2
        cases i with
        | zero =>
          simp only [List.getElem?_cons_zero, Option.some.injEq] at hi
          subst hi
          rw [hhd] at hl
          injection hl with hd1 hd2
          subst hd1 hd2
          simp
        | succ j =>
          simp only [List.getElem?_cons_succ] at hi
          simpa using ih pos ns ex hrec j hi
    | remat =>
      cases hb : lookupBounds ml hd.name with
      | none =>
        rw [rebuildLoopNest_cons_remat_none ml numPar numRemat hd rest pos hhd hb] at h
        exact absurd h (by simp)
      | some b =>
        rw [rebuildLoopNest_cons_remat_some ml numPar numRemat hd rest pos b hhd hb] at h
        cases hrec : rebuildLoopNest ml numPar numRemat rest (pos + 1) with
        | none => rw [hrec] at h; exact absurd h (by simp)
        | some p =>
          obtain ⟨ns, ex⟩ := p
          rw [hrec, Option.map_some'] at h
          injection h with h
          obtain ⟨h1, h2⟩ := Prod.mk.injEq .. ▸ h
          subst h1 h2
          cases i with
          | zero =>
            simp only [List.getElem?_cons_zero, Option.some.injEq] at hi
            subst hi
            rw [hhd] at hl
            cases hl
          | succ j =>
            simp only [List.getElem?_cons_succ] at hi
            simpa using ih (pos + 1) ns ex hrec j hi

theorem rebuildLoopNest_remat_entry (ml : MainLoops) (numPar numRemat : Nat)
    (nest : List LoopAttr) (pos : Nat) (nest' : List LoopAttr) (extras : List Value)
    (h : rebuildLoopNest ml numPar numRemat nest pos = some (nest', extras))
    (i : Nat) (l : LoopAttr) (hi : nest[i]? = some l) (hl : l.iter = .remat) :
    ∃ b, lookupBounds ml l.name = some b ∧
      nest'[i]? =
        some ⟨l.name,
          .concrete (pos + (nest.take i).countP (fun x => x.iter.rematFlag)) b.step⟩ := by
  induction nest generalizing pos nest' extras i with
  | nil => simp at hi
  | cons hd rest ih =>
    cases hhd : hd.iter with
    | concrete d0 s0 =>
      rw [rebuildLoopNest_cons_concrete ml numPar numRemat hd rest pos d0 s0 hhd] at h
      cases hrec : rebuildLoopNest ml numPar numRemat rest pos with
      | none => rw [hrec] at h; exact absurd h (by simp)
      | some p =>
        obtain ⟨ns, ex⟩ := p
        rw [hrec, Option.map_some'] at h
        injection h with h
        obtain ⟨h1, h2⟩ := Prod.mk.injEq .. ▸ h
        subst h1 h2
        cases i with
        | zero =>
          simp only [List.getElem?_cons_zero, Option.some.injEq] at hi
          subst hi
          rw [hhd] at hl
          cases hl
        | succ j =>
          simp only [List.getElem?_cons_succ] at hi
          obtain ⟨b, hb, hj⟩ := ih pos ns ex hrec j hi
          refine ⟨b, hb, ?_⟩
          simp only [List.getElem?_cons_succ, List.take_succ_cons, List.countP_cons, hhd,
            Iter.rematFlag, hj]
          simp
    | remat =>
      cases hb : lookupBounds ml hd.name with
      | none =>
        rw [rebuildLoopNest_cons_remat_none ml numPar numRemat hd rest pos hhd hb] at h
        exact absurd h (by simp)
      | some b0 =>
        rw [rebuildLoopNest_cons_remat_some ml numPar numRemat hd rest pos b0 hhd hb] at h
        cases hrec : rebuildLoopNest ml numPar numRemat rest (pos + 1) with
        | none => rw [hrec] at h; exact absurd h (by simp)
        | some p =>
          obtain ⟨ns, ex⟩ := p
          rw [hrec, Option.map_some'] at h
          injection h with h
          obtain ⟨h1, h2⟩ := Prod.mk.injEq .. ▸ h
          subst h1 h2
          cases i with
          | zero =>
            simp only [List.getElem?_cons_zero, Option.some.injEq] at hi
            subst hi
            refine ⟨b0, hb, ?_⟩
            simp
          | succ j =>
            simp only [List.getElem?_cons_succ] at hi
            obtain ⟨b, hb', hj⟩ := ih (pos + 1) ns ex hrec j hi
            refine ⟨b, hb', ?_⟩
            have hc : List.countP (fun x => x.iter.rematFlag) (List.take (j + 1) (hd :: rest))
                = List.countP (fun x => x.iter.rematFlag) (List.take j rest) + 1 := by
              simp [List.take_succ_cons, List.countP_cons, hhd, Iter.rematFlag]
            have harith :
                pos + List.countP (fun x => x.iter.rematFlag) (List.take (j + 1) (hd :: rest))
                  = pos + 1 + List.countP (fun x => x.iter.rematFlag) (List.take j rest) := by
              rw [hc]; omega
            rw [List.getElem?_cons_succ, harith, hj]

theorem rebuildLoopNest_names (ml : MainLoops) (numPar numRemat : Nat)
    (nest : List LoopAttr) (pos : Nat) (nest' : List LoopAttr) (extras : List Value)
    (h : rebuildLoopNest ml numPar numRemat nest pos = some (nest', extras))
    (i : Nat) (l : LoopAttr) (hi : nest[i]? = some l) :
    ∃ l', nest'[i]? = some l' ∧ l'.name = l.name := by
  cases hl : l.iter with
  | concrete d s =>
    refine ⟨_, rebuildLoopNest_concrete_entry ml numPar numRemat nest pos nest' extras
      h i l hi d s hl, ?_⟩
    by_cases hc : numPar ≤ d <;> simp [hc]
  | remat =>
    obtain ⟨b, _, hb⟩ := rebuildLoopNest_remat_entry ml numPar numRemat nest pos nest'
      extras h i l hi hl
    exact ⟨_, hb, rfl⟩

theorem rebuildLoopNest_extras (ml : MainLoops) (numPar numRemat : Nat)
    (nest : List LoopAttr) (pos : Nat) (nest' : List LoopAttr) (extras : List Value)
    (h : rebuildLoopNest ml numPar numRemat nest pos = some (nest', extras)) :
    extras = (nest.filter (fun l => l.iter.rematFlag)).map
      (fun l => ((lookupBounds ml l.name).getD ⟨0, 0, []⟩).range) := by
  induction nest generalizing pos nest' extras with
  | nil =>
    rw [rebuildLoopNest_nil] at h
    injection h with h
    obtain ⟨h1, h2⟩ := Prod.mk.injEq .. ▸ h
    simp [← h2]
  | cons hd rest ih =>
    cases hhd : hd.iter with
    | concrete d s =>
      rw [rebuildLoopNest_cons_concrete ml numPar numRemat hd rest pos d s hhd] at h
      cases hrec : rebuildLoopNest ml numPar numRemat rest pos with
      | none => rw [hrec] at h; exact absurd h (by simp)
      | some p =>
        obtain ⟨ns, ex⟩ := p
        rw [hrec, Option.map_some'] at h
        injection h with h
        obtain ⟨h1, h2⟩ := Prod.mk.injEq .. ▸ h
        subst h1 h2
        simp only [List.filter_cons, hhd, Iter.rematFlag]
        simpa using ih pos ns ex hrec
    | remat =>
      cases hb : lookupBounds ml hd.name with
      | none =>
        rw [rebuildLoopNest_cons_remat_none ml numPar numRemat hd rest pos hhd hb] at h
        exact absurd h (by simp)
      | some b =>
        rw [rebuildLoopNest_cons_remat_some ml numPar numRemat hd rest pos b hhd hb] at h
        cases hrec : rebuildLoopNest ml numPar numRemat rest (pos + 1) with
        | none => rw [hrec] at h; exact absurd h (by simp)
        | some p =>
          obtain ⟨ns, ex⟩ := p
          rw [hrec, Option.map_some'] at h
          injection h with h
          obtain ⟨h1, h2⟩ := Prod.mk.injEq .. ▸ h
          subst h1 h2
          simp only [List.filter_cons, hhd, Iter.rematFlag, List.map_cons]
          simpa [hb, Iter.rematFlag] using ih (pos + 1) ns ex hrec

theorem rematPositionsFrom_length (nest : List LoopAttr) :
    ∀ i, (rematPositionsFrom nest i).length = nest.countP (fun l => l.iter.rematFlag) := by
  induction nest with
  | nil => intro i; simp [rematPositionsFrom]
  | cons hd rest ih =>
    intro i
    by_cases hhd : hd.iter.rematFlag = true
    · simp [rematPositionsFrom, hhd, List.countP_cons, ih (i + 1)]
    · simp only [Bool.not_eq_true] at hhd
      simp [rematPositionsFrom, hhd, List.countP_cons, ih (i + 1)]

theorem rematPositions_length (nest : List LoopAttr) :
    (rematPositions nest).length = nest.countP (fun l => l.iter.rematFlag) := by
  simp [rematPositions, rematPositionsFrom_length nest 0]

/-! ### C5: index shifting and position assignment in the rebuilt loop nest -/

/-- C5: when an operation with `K` pending loops is rematerialized, every
already-materialized loop-nest entry whose dimension index is at or past the
parallel-domain boundary has its index increased by exactly `K` (keeping its
step), entries with smaller indices are unchanged, and the pending entries
are assigned, in their original relative order, the consecutive positions
starting at the parallel boundary, each with its recorded step. -/
theorem C5_loop_nest_shift_and_positions
    (ml : MainLoops) (numPar : Nat) (nest : List LoopAttr)
    (hlk : ∀ l ∈ nest, l.iter.rematFlag = true → (lookupBounds ml l.name).isSome) :
    ∃ nest' extras,
      rebuildLoopNest ml numPar (rematPositions nest).length nest numPar
        = some (nest', extras) ∧
      nest'.length = nest.length ∧
      (∀ (i : Nat) (l : LoopAttr) (d : Nat) (s : Int),
        nest[i]? = some l → l.iter = .concrete d s →
        (numPar ≤ d →
          nest'[i]? = some ⟨l.name, .concrete (d + (rematPositions nest).length) s⟩) ∧
        (d < numPar → nest'[i]? = some l)) ∧
      (∀ (i : Nat) (l : LoopAttr), nest[i]? = some l → l.iter = .remat →
        ∃ b, lookupBounds ml l.name = some b ∧
          nest'[i]? = some ⟨l.name,
            .concrete (numPar + (nest.take i).countP (fun x => x.iter.rematFlag)) b.step⟩) := by
  obtain ⟨⟨nest', extras⟩, hsome⟩ := Option.isSome_iff_exists.mp
    (rebuildLoopNest_isSome ml numPar (rematPositions nest).length nest numPar hlk)
  refine ⟨nest', extras, hsome, (rebuildLoopNest_length _ _ _ _ _ _ _ hsome).1, ?_, ?_⟩
  · intro i l d s hi hl
    have hcc := rebuildLoopNest_concrete_entry ml numPar (rematPositions nest).length nest
      numPar nest' extras hsome i l hi d s hl
    constructor
    · intro hle
      rw [if_pos hle] at hcc
      exact hcc
    · intro hlt
      rw [if_neg (by omega)] at hcc
      exact hcc
  · intro i l hi hl
    exact rebuildLoopNest_remat_entry ml numPar (rematPositions nest).length nest numPar
      nest' extras hsome i l hi hl

/-- Witness for C5 on a concrete loop nest: boundary at 1, two pending loops. -/
theorem C5_loop_nest_shift_witness :
    (∀ l ∈ exNestC5, l.iter.rematFlag = true →
      (lookupBounds exMainLoopsC5 l.name).isSome) ∧
    (∃ nest' extras,
      rebuildLoopNest exMainLoopsC5 1 (rematPositions exNestC5).length exNestC5 1
        = some (nest', extras) ∧
      nest'.length = exNestC5.length ∧
      (∀ (i : Nat) (l : LoopAttr) (d : Nat) (s : Int),
        exNestC5[i]? = some l → l.iter = .concrete d s →
        (1 ≤ d →
          nest'[i]? = some ⟨l.name, .concrete (d + (rematPositions exNestC5).length) s⟩) ∧
        (d < 1 → nest'[i]? = some l)) ∧
      (∀ (i : Nat) (l : LoopAttr), exNestC5[i]? = some l → l.iter = .remat →
        ∃ b, lookupBounds exMainLoopsC5 l.name = some b ∧
          nest'[i]? = some ⟨l.name,
            .concrete (1 + (exNestC5.take i).countP (fun x => x.iter.rematFlag))
              b.step⟩)) :=
  ⟨by decide, C5_loop_nest_shift_and_positions exMainLoopsC5 1 exNestC5 (by decide)⟩

/-! ### Helpers for reasoning about a single pending loop and substitutions -/

theorem rematPositionsFrom_append_concrete (pre : List LoopAttr)
    (hpre : ∀ l ∈ pre, l.iter.rematFlag = false) :
    ∀ (n : Nat) (rest : List LoopAttr),
      rematPositionsFrom (pre ++ rest) n = rematPositionsFrom rest (n + pre.length) := by
  induction pre with
  | nil => intro n rest; simp
  | cons hd tl ih =>
    intro n rest
    have hhd : hd.iter.rematFlag = false := hpre hd (List.mem_cons_self _ _)
    have htl : ∀ l ∈ tl, l.iter.rematFlag = false :=
      fun l hl => hpre l (List.mem_cons_of_mem _ hl)
    simp only [List.cons_append, rematPositionsFrom, hhd, Bool.false_eq_true, if_false,
      List.length_cons]
    have harith : n + 1 + tl.length = n + (tl.length + 1) := by omega
    rw [show tl.append rest = tl ++ rest from rfl, ih htl (n + 1) rest, harith]

theorem rematPositionsFrom_concrete (post : List LoopAttr)
    (hpost : ∀ l ∈ post, l.iter.rematFlag = false) :
    ∀ n, rematPositionsFrom post n = [] := by
  induction post with
  | nil => intro n; simp [rematPositionsFrom]
  | cons hd tl ih =>
    intro n
    have hhd : hd.iter.rematFlag = false := hpost hd (List.mem_cons_self _ _)
    simp only [rematPositionsFrom, hhd, Bool.false_eq_true, if_false]
    exact ih (fun l hl => hpost l (List.mem_cons_of_mem _ hl)) (n + 1)

theorem rematPositions_single (pre post : List LoopAttr) (iName : String)
    (hpre : ∀ l ∈ pre, l.iter.rematFlag = false)
    (hpost : ∀ l ∈ post, l.iter.rematFlag = false) :
    rematPositions (pre ++ ⟨iName, Iter.remat⟩ :: post) = [pre.length] := by
  unfold rematPositions
  rw [rematPositionsFrom_append_concrete pre hpre 0 (⟨iName, Iter.remat⟩ :: post)]
  simp only [rematPositionsFrom, Iter.rematFlag, if_true]
  rw [rematPositionsFrom_concrete post hpost]
  simp

theorem countP_remat_pre (pre : List LoopAttr)
    (hpre : ∀ l ∈ pre, l.iter.rematFlag = false) :
    pre.countP (fun l => l.iter.rematFlag) = 0 := by
  rw [List.countP_eq_zero]
  intro l hl
  simp [hpre l hl]

theorem substValue_not_key (sub : List (Value × Value)) (v : Value)
    (h : ∀ kv ∈ sub, kv.1 ≠ v) : substValue sub v = v := by
  unfold substValue
  have : sub.find? (fun kv => kv.1 == v) = none := by
    rw [List.find?_eq_none]
    intro kv hkv
    simpa using h kv hkv
  rw [this]

theorem find?_range' (q : Nat → Bool) (j : Nat) :
    ∀ (s len : Nat), s ≤ j → j < s + len → q j = true →
      (∀ i, s ≤ i → i < j → q i = false) →
      List.find? q (List.range' s len) = some j := by
  intro s len
  induction len generalizing s with
  | zero => intro h1 h2; omega
  | succ n ih =>
    intro h1 h2 hq hbefore
    rw [List.range'_succ]
    by_cases hs : s = j
    · subst hs
      rw [List.find?_cons_of_pos _ hq]
    · have hqs : q s = false := hbefore s le_rfl (by omega)
      rw [List.find?_cons_of_neg _ (by simp [hqs])]
      exact ih (s + 1) (by omega) (by omega) hq (fun i hi1 hi2 => hbefore i (by omega) hi2)

theorem substValue_fresh_pair (ids : List Value) (base n j : Nat)
    (hn : n ≤ ids.length) (hj : j < n) (hnd : ids.Nodup) :
    substValue ((List.range n).map (fun i => (ids.getD i 0, base + i)))
      (ids.getD j 0) = base + j := by
  unfold substValue
  rw [List.find?_map]
  have hfind : List.find? ((fun kv => kv.1 == ids.getD j 0) ∘
      (fun i => (ids.getD i 0, base + i))) (List.range n) = some j := by
    rw [List.range_eq_range']
    apply find?_range' _ j 0 n (by omega) (by omega)
    · simp
    · intro i _ hij
      have hi : i < ids.length := by omega
      have hjlen : j < ids.length := by omega
      have : ids.getD i 0 ≠ ids.getD j 0 := by
        rw [List.getD_eq_getElem ids 0 hi, List.getD_eq_getElem ids 0 hjlen]
        intro heq
        exact absurd (List.Nodup.getElem_inj_iff hnd |>.mp heq) (by omega)
      simpa using this
  rw [hfind]
  simp

theorem rematPieces_ok (ml : MainLoops) (op : Op) (fo : Nat) (fv : Value)
    (pd : List Value) (newNest : List LoopAttr) (extras : List Value)
    (rds : List DomainShapeDim)
    (hk : op.kind = OpKind.copy ∨ op.kind = OpKind.map ∨ op.kind = OpKind.mapReduce)
    (hpd : ParallelDomain op = some pd)
    (hrb : rebuildLoopNest ml pd.length (rematPositions op.loopNestLoops).length
      op.loopNestLoops pd.length = some (newNest, extras))
    (hrd : (rematPositions op.loopNestLoops).mapM
      (rematShapeDim ml newNest
        (SRangeType.hyperRect (op.shape.length + (rematPositions op.loopNestLoops).length)))
      = some rds) :
    rematPieces ml op fo fv = .ok (piecesFormula op fo fv pd newNest extras rds) := by
  rcases hk with hk | hk | hk <;>
    simp only [rematPieces, piecesFormula, hpd, hrb, hrd, hk, AdaptTypesToShape,
      List.length_map]

theorem filter_remat_single (pre post : List LoopAttr) (m : LoopAttr)
    (hm : m.iter.rematFlag = true)
    (hpre : ∀ l ∈ pre, l.iter.rematFlag = false)
    (hpost : ∀ l ∈ post, l.iter.rematFlag = false) :
    (pre ++ m :: post).filter (fun l => l.iter.rematFlag) = [m] := by
  rw [List.filter_append, List.filter_cons]
  have h1 : pre.filter (fun l => l.iter.rematFlag) = [] := by
    rw [List.filter_eq_nil_iff]; intro l hl; simp [hpre l hl]
  have h2 : post.filter (fun l => l.iter.rematFlag) = [] := by
    rw [List.filter_eq_nil_iff]; intro l hl; simp [hpost l hl]
  simp [h1, h2, hm]

theorem getD_map_range (f : Nat → Value) (n j : Nat) (d : Value) (hj : j < n) :
    ((List.range n).map f).getD j d = f j := by
  rw [List.getD_eq_getElem _ _ (by simpa using hj)]
  simp

theorem getElem?_mid_left {α : Type} (A : List α) (x : α) (B C : List α) :
    (A ++ (x :: B) ++ C)[A.length]? = some x := by
  rw [List.append_assoc, List.getElem?_append_right le_rfl]
  simp

theorem getElem?_mid_proj {α : Type} (A : List α) (x : α) (B C : List α) (j : Nat)
    (hj : j < B.length) :
    (A ++ (x :: B) ++ C)[A.length + 1 + j]? = B[j]? := by
  rw [List.append_assoc, List.getElem?_append_right (by omega)]
  have : A.length + 1 + j - A.length = j + 1 := by omega
  rw [this, List.cons_append, List.getElem?_cons_succ, List.getElem?_append_left hj]

theorem getElem?_mid_before {α : Type} (A : List α) (x : α) (B C : List α) (i : Nat)
    (hi : i < A.length) :
    (A ++ (x :: B) ++ C)[i]? = A[i]? := by
  rw [List.append_assoc, List.getElem?_append_left hi]

theorem getElem?_mid_after {α : Type} (A : List α) (x : α) (B C : List α) (k : Nat) :
    (A ++ (x :: B) ++ C)[A.length + 1 + B.length + k]? = C[k]? := by
  rw [List.append_assoc, List.getElem?_append_right (by omega)]
  have h1 : A.length + 1 + B.length + k - A.length = B.length + k + 1 := by omega
  rw [h1, List.cons_append, List.getElem?_cons_succ, List.getElem?_append_right (by omega)]
  congr 1
  omega

theorem getElem?_mid_left_eq {α : Type} (A : List α) (x : α) (B C : List α) (i : Nat)
    (h : i = A.length) : (A ++ (x :: B) ++ C)[i]? = some x :=
  h ▸ getElem?_mid_left A x B C

theorem getElem?_mid_proj_eq {α : Type} (A : List α) (x : α) (B C : List α) (i j : Nat)
    (hj : j < B.length) (h : i = A.length + 1 + j) :
    (A ++ (x :: B) ++ C)[i]? = B[j]? :=
  h ▸ getElem?_mid_proj A x B C j hj

theorem getElem?_mid_after_eq {α : Type} (A : List α) (x : α) (B C : List α) (i k : Nat)
    (h : i = A.length + 1 + B.length + k) :
    (A ++ (x :: B) ++ C)[i]? = C[k]? :=
  h ▸ getElem?_mid_after A x B C k

theorem mem_of_getElem?_some {α : Type} (l : List α) (i : Nat) (a : α)
    (h : l[i]? = some a) : a ∈ l := by
  obtain ⟨hlt, hget⟩ := List.getElem?_eq_some.mp h
  exact hget ▸ List.getElem_mem hlt

theorem opId_ne_of_before (L : List Op) (k : Nat) (op q : Op)
    (hidnd : (L.map (fun o => o.opId)).Nodup)
    (hq : q ∈ L.take k) (hopmem : op ∈ L.drop k) : q.opId ≠ op.opId := by
  rw [← List.take_append_drop k L, List.map_append] at hidnd
  have hdisj := (List.nodup_append.mp hidnd).2.2
  exact fun he =>
    hdisj (List.mem_map_of_mem _ hq) (he ▸ List.mem_map_of_mem _ hopmem)

theorem opId_ne_of_after (L : List Op) (k : Nat) (op q : Op)
    (hidnd : (L.map (fun o => o.opId)).Nodup)
    (hq : q ∈ L.drop k) (hopmem : op ∈ L.take k) : q.opId ≠ op.opId := by
  rw [← List.take_append_drop k L, List.map_append] at hidnd
  have hdisj := (List.nodup_append.mp hidnd).2.2
  exact fun he =>
    hdisj (List.mem_map_of_mem _ hopmem) (he ▸ List.mem_map_of_mem _ hq) |>.elim

/-! ### C1: basic rematerialization of a single pending loop -/

/-- C1: for a compute operation of a supported kind with exactly one pending
loop `i` whose recorded bounds have range `r`, step 1, and no dependencies, a
successful `Rematerialize` produces a replacement whose domain is the
original domain with the extra dimension `r` inserted at the parallel
boundary, whose loop-nest entry for `i` is a concrete iterator at the first
position past the parallel dimensions with step 1; it creates one projection
per result over the replacement's result, removing exactly the inserted
dimension and yielding the original result type; every former use of an
original result is redirected to the corresponding projection's result, and
the original operation is erased. -/
theorem C1_basic_rematerialization
    (ml : MainLoops) (prog : Program) (opIdx : Nat) (op : Op)
    (pre post : List LoopAttr) (iName : String) (r : Value)
    (hop : prog.ops[opIdx]? = some op)
    (hk : op.kind = OpKind.copy ∨ op.kind = OpKind.map ∨ op.kind = OpKind.mapReduce)
    (hnest : op.loopNest = some (pre ++ ⟨iName, Iter.remat⟩ :: post))
    (hpre : ∀ l ∈ pre, l.iter.rematFlag = false)
    (hpost : ∀ l ∈ post, l.iter.rematFlag = false)
    (hbnd : lookupBounds ml iName = some ⟨r, 1, []⟩)
    (hpr : op.parallelRank ≤ op.domain.length)
    (hlen : op.resultIds.length = op.resultTypes.length)
    (hcopy1 : op.kind = OpKind.copy → op.resultTypes.length = 1)
    (hnd : op.resultIds.Nodup)
    (hvals : ∀ q ∈ prog.ops, (∀ v ∈ q.operands, v < prog.nextVal) ∧
      (∀ v ∈ q.domain, v < prog.nextVal) ∧ ∀ v ∈ q.resultIds, v < prog.nextVal)
    (hops : ∀ q ∈ prog.ops, q.opId < prog.nextOpId)
    (hidnd : (prog.ops.map (fun q => q.opId)).Nodup)
    (hdomres : ∀ v ∈ op.domain, v ∉ op.resultIds)
    (hrres : r ∉ op.resultIds) :
    ∃ pd newOp,
      ParallelDomain op = some pd ∧
      (Rematerialize ml prog opIdx).1 = none ∧
      (Rematerialize ml prog opIdx).2.ops[opIdx]? = some newOp ∧
      newOp.domain = pd ++ r :: op.domain.drop pd.length ∧
      (∃ nest', newOp.loopNest = some nest' ∧
        nest'[pre.length]? = some ⟨iName, Iter.concrete pd.length 1⟩) ∧
      (∀ j, j < op.resultTypes.length → ∃ projOp,
        (Rematerialize ml prog opIdx).2.ops[opIdx + 1 + j]? = some projOp ∧
        projOp.kind = OpKind.projAny ∧
        projOp.resultTypes = [op.resultTypes.getD j dfltValueType] ∧
        projOp.operands = [newOp.resultIds.getD j 0] ∧
        projOp.domain = pd ++ [r] ∧
        projOp.parallelRank = pd.length ∧
        projOp.resultIds = [prog.nextVal + op.resultTypes.length + j]) ∧
      (∀ m, m < prog.ops.length → m ≠ opIdx → ∃ q,
        prog.ops[m]? = some q ∧
        (Rematerialize ml prog opIdx).2.ops[if m < opIdx then m
          else m + op.resultTypes.length]? = some
          (substOpUses ((List.range op.resultTypes.length).map (fun j =>
            (op.resultIds.getD j 0, prog.nextVal + op.resultTypes.length + j))) q)) ∧
      (∀ j, j < op.resultTypes.length →
        substValue ((List.range op.resultTypes.length).map (fun i =>
            (op.resultIds.getD i 0, prog.nextVal + op.resultTypes.length + i)))
          (op.resultIds.getD j 0) = prog.nextVal + op.resultTypes.length + j) ∧
      (∀ v, v ∉ op.resultIds →
        substValue ((List.range op.resultTypes.length).map (fun i =>
            (op.resultIds.getD i 0, prog.nextVal + op.resultTypes.length + i))) v = v) ∧
      (∀ q2 ∈ (Rematerialize ml prog opIdx).2.ops, q2.opId ≠ op.opId) := by
  obtain ⟨pd, hpd⟩ : ∃ pd, ParallelDomain op = some pd := by
    rcases hk with hk | hk | hk
    · exact ⟨op.domain, by simp [ParallelDomain, hk]⟩
    · exact ⟨op.domain, by simp [ParallelDomain, hk]⟩
    · exact ⟨op.domain.take op.parallelRank, by simp [ParallelDomain, hk]⟩
  have hopmem : op ∈ prog.ops := mem_of_getElem?_some _ _ _ hop
  have hIdxlt : opIdx < prog.ops.length := (List.getElem?_eq_some.mp hop).1
  -- the loop nest and its single pending entry
  have hnl : op.loopNestLoops = pre ++ ⟨iName, Iter.remat⟩ :: post := by
    simp [Op.loopNestLoops, hnest]
  have hloops : rematPositions op.loopNestLoops = [pre.length] := by
    rw [hnl]; exact rematPositions_single pre post iName hpre hpost
  have hlk : ∀ l ∈ op.loopNestLoops, l.iter.rematFlag = true →
      (lookupBounds ml l.name).isSome := by
    rw [hnl]
    intro l hl hfl
    rcases List.mem_append.mp hl with hl | hl
    · exact absurd hfl (by simp [hpre l hl])
    · rcases List.mem_cons.mp hl with hl | hl
      · subst hl; simp [hbnd]
      · exact absurd hfl (by simp [hpost l hl])
  obtain ⟨⟨newNest, extras⟩, hrb⟩ := Option.isSome_iff_exists.mp
    (rebuildLoopNest_isSome ml pd.length (rematPositions op.loopNestLoops).length
      op.loopNestLoops pd.length hlk)
  have hmid : op.loopNestLoops[pre.length]? = some ⟨iName, Iter.remat⟩ := by
    rw [hnl, List.getElem?_append_right le_rfl]
    simp
  obtain ⟨b, hb', hentry⟩ := rebuildLoopNest_remat_entry ml pd.length
    (rematPositions op.loopNestLoops).length op.loopNestLoops pd.length newNest extras hrb
    pre.length ⟨iName, Iter.remat⟩ hmid rfl
  have hb2 : lookupBounds ml iName = some b := hb'
  rw [hbnd] at hb2
  injection hb2 with hb2
  subst hb2
  have hcount : ((op.loopNestLoops).take pre.length).countP
      (fun x => x.iter.rematFlag) = 0 := by
    rw [hnl, List.take_left]
    exact countP_remat_pre pre hpre
  rw [hcount] at hentry
  have hentry' : newNest[pre.length]? = some ⟨iName, Iter.concrete pd.length 1⟩ := by
    simpa using hentry
  have hex : extras = [r] := by
    have hx := rebuildLoopNest_extras ml pd.length (rematPositions op.loopNestLoops).length
      op.loopNestLoops pd.length newNest extras hrb
    rw [hnl, filter_remat_single pre post ⟨iName, Iter.remat⟩ (by simp [Iter.rematFlag])
      hpre hpost] at hx
    simpa [hbnd] using hx
  subst hex
  -- shape dimension for the single pending loop
  have hshape : ∀ ty, rematShapeDim ml newNest ty pre.length
      = some ⟨ty, ⟨pd.length, []⟩⟩ := by
    intro ty
    simp [rematShapeDim, hentry', hbnd, Iter.dimension, List.mapM.loop]
  have hrd : (rematPositions op.loopNestLoops).mapM
      (rematShapeDim ml newNest (SRangeType.hyperRect
        (op.shape.length + (rematPositions op.loopNestLoops).length)))
      = some [⟨SRangeType.hyperRect
          (op.shape.length + (rematPositions op.loopNestLoops).length),
        ⟨pd.length, []⟩⟩] := by
    rw [hloops]
    simp [hshape, List.mapM.loop]
  have hpieces := rematPieces_ok ml op prog.nextOpId prog.nextVal pd newNest [r] _
    hk hpd hrb hrd
  set NR := op.resultTypes.length with hNRdef
  set fv := prog.nextVal with hfvdef
  set fo := prog.nextOpId with hfodef
  set P := piecesFormula op fo fv pd newNest [r]
    [⟨SRangeType.hyperRect (op.shape.length + (rematPositions op.loopNestLoops).length),
      ⟨pd.length, []⟩⟩] with hPdef
  -- facts about the substitution
  have hPsub : P.sub = (List.range NR).map (fun i =>
      (op.resultIds.getD i 0, fv + NR + i)) := by
    simp [hPdef, piecesFormula, AdaptTypesToShape]
  have hkeymem : ∀ i, i < NR → op.resultIds.getD i 0 ∈ op.resultIds := by
    intro i hi
    have hi' : i < op.resultIds.length := by omega
    rw [List.getD_eq_getElem _ _ hi']
    exact List.getElem_mem hi'
  have hsubno : ∀ v, v ∉ op.resultIds → substValue P.sub v = v := by
    intro v hv
    apply substValue_not_key
    intro kv hkv
    rw [hPsub] at hkv
    simp only [List.mem_map, List.mem_range] at hkv
    obtain ⟨i, hi, hkv⟩ := hkv
    rw [← hkv]
    intro he
    exact hv (he ▸ hkeymem i hi)
  have hvalop := hvals op hopmem
  have hkeylt : ∀ i, i < NR → op.resultIds.getD i 0 < fv := by
    intro i hi
    exact hvalop.2.2 _ (hkeymem i hi)
  have hsubfresh : ∀ w, fv ≤ w → substValue P.sub w = w := by
    intro w hw
    apply substValue_not_key
    intro kv hkv
    rw [hPsub] at hkv
    simp only [List.mem_map, List.mem_range] at hkv
    obtain ⟨i, hi, hkv⟩ := hkv
    have h1 : kv.1 = op.resultIds.getD i 0 := by rw [← hkv]
    rw [h1]
    have hlt := hkeylt i hi
    exact Nat.ne_of_lt (lt_of_lt_of_le hlt hw)
  have hmapno : ∀ L : List Value, (∀ v ∈ L, v ∉ op.resultIds) →
      L.map (substValue P.sub) = L := by
    intro L hL
    induction L with
    | nil => simp
    | cons a as ih =>
      simp only [List.map_cons]
      rw [hsubno a (hL a (List.mem_cons_self _ _)),
        ih (fun v hv => hL v (List.mem_cons_of_mem _ hv))]
  have hpddom : ∀ v ∈ pd, v ∈ op.domain := by
    rcases hk with hk2 | hk2 | hk2
    · simp only [ParallelDomain, hk2, Option.some.injEq] at hpd
      subst hpd; exact fun v hv => hv
    · simp only [ParallelDomain, hk2, Option.some.injEq] at hpd
      subst hpd; exact fun v hv => hv
    · simp only [ParallelDomain, hk2, Option.some.injEq] at hpd
      subst hpd; exact fun v hv => List.take_subset _ _ hv
  -- facts about the replacement operation
  have hPnewLoop : P.newOp.loopNest = some newNest := by
    rcases hk with hk2 | hk2 | hk2 <;>
      simp [hPdef, piecesFormula, hk2, recreateCopy, recreateMap, recreateMapReduce]
  have hPnewOpId : P.newOp.opId = fo := by
    rcases hk with hk2 | hk2 | hk2 <;>
      simp [hPdef, piecesFormula, hk2, recreateCopy, recreateMap, recreateMapReduce]
  have hPnewDom : P.newOp.domain = pd ++ r :: op.domain.drop pd.length := by
    rcases hk with hk2 | hk2 | hk2
    · simp only [ParallelDomain, hk2, Option.some.injEq] at hpd
      subst hpd
      simp [hPdef, piecesFormula, hk2, recreateCopy, List.drop_length]
    · simp only [ParallelDomain, hk2, Option.some.injEq] at hpd
      subst hpd
      simp [hPdef, piecesFormula, hk2, recreateMap, List.drop_length]
    · simp only [ParallelDomain, hk2, Option.some.injEq] at hpd
      subst hpd
      have hplen : (op.domain.take op.parallelRank).length = op.parallelRank := by
        simp [List.length_take]
        omega
      simp [hPdef, piecesFormula, hk2, recreateMapReduce, Op.parallelDomain,
        Op.reductionDomain, hplen]
  have hPnewRes : ∀ j, j < NR → P.newOp.resultIds.getD j 0 = fv + j := by
    rcases hk with hk2 | hk2 | hk2
    · have h1 : NR = 1 := hcopy1 hk2
      intro j hj
      have hj0 : j = 0 := by omega
      subst hj0
      rw [hPdef]
      simp only [piecesFormula, hk2, recreateCopy, AdaptTypesToShape, List.length_map]
      rw [← hNRdef, h1]
      simp
    · intro j hj
      rw [hPdef]
      simp only [piecesFormula, hk2, recreateMap, AdaptTypesToShape, List.length_map]
      rw [← hNRdef]
      exact getD_map_range _ _ _ _ hj
    · intro j hj
      rw [hPdef]
      simp only [piecesFormula, hk2, recreateMapReduce, AdaptTypesToShape, List.length_map]
      rw [← hNRdef]
      exact getD_map_range _ _ _ _ hj
  have hPprojs : P.projOps = (List.range NR).map (fun i =>
      makeProjOp op P.newOp pd [r] pd.length (rematPositions op.loopNestLoops).length i
        (fo + 1 + i) (fv + NR + i)) := by
    rw [hPdef]
    simp [piecesFormula, AdaptTypesToShape]
  have hPprojLen : P.projOps.length = NR := by
    rw [hPprojs]; simp
  -- unfolding Rematerialize
  have hR : Rematerialize ml prog opIdx = (none,
      { ops := (prog.ops.take opIdx ++ (P.newOp :: P.projOps) ++
          prog.ops.drop (opIdx + 1)).map (substOpUses P.sub),
        nextVal := fv + 2 * P.projOps.length,
        nextOpId := fo + 1 + P.projOps.length }) := by
    simp only [Rematerialize, hop, hpieces]
  have hmapped : (Rematerialize ml prog opIdx).2.ops
      = (prog.ops.take opIdx).map (substOpUses P.sub) ++
        (substOpUses P.sub P.newOp :: P.projOps.map (substOpUses P.sub)) ++
        (prog.ops.drop (opIdx + 1)).map (substOpUses P.sub) := by
    rw [hR]
    simp [List.map_append]
  have hTlen : ((prog.ops.take opIdx).map (substOpUses P.sub)).length = opIdx := by
    simp [List.length_take]
    omega
  have hBlen : (P.projOps.map (substOpUses P.sub)).length = NR := by
    simp [hPprojLen]
  have hdropmem : op ∈ prog.ops.drop opIdx := by
    apply mem_of_getElem?_some _ 0
    rw [List.getElem?_drop]
    simpa using hop
  have htakemem : op ∈ prog.ops.take (opIdx + 1) := by
    apply mem_of_getElem?_some _ opIdx
    rw [List.getElem?_take, if_pos (by omega)]
    exact hop
  refine ⟨pd, substOpUses P.sub P.newOp, hpd, ?_, ?_, ?_, ?_, ?_, ?_, ?_, ?_, ?_⟩
  · rw [hR]
  · rw [hmapped]
    exact getElem?_mid_left_eq _ _ _ _ opIdx hTlen.symm
  · simp only [substOpUses]
    rw [hPnewDom]
    simp only [List.map_append, List.map_cons]
    rw [hmapno pd (fun v hv => hdomres v (hpddom v hv)), hsubno r hrres,
      hmapno _ (fun v hv => hdomres v (List.drop_subset _ _ hv))]
  · exact ⟨newNest, by simp [substOpUses, hPnewLoop], hentry'⟩
  · intro j hj
    refine ⟨substOpUses P.sub (makeProjOp op P.newOp pd [r] pd.length
      (rematPositions op.loopNestLoops).length j (fo + 1 + j) (fv + NR + j)), ?_, ?_, ?_, ?_,
      ?_, ?_, ?_⟩
    · rw [hmapped]
      rw [getElem?_mid_proj_eq ((prog.ops.take opIdx).map (substOpUses P.sub)) (substOpUses P.sub P.newOp) (P.projOps.map (substOpUses P.sub)) ((prog.ops.drop (opIdx + 1)).map (substOpUses P.sub)) (opIdx + 1 + j) j
        (by rw [hBlen]; omega) (by rw [hTlen])]
      rw [hPprojs, List.map_map, List.getElem?_map, List.getElem?_range hj]
      simp
    · simp [substOpUses, makeProjOp]
    · simp [substOpUses, makeProjOp]
    · simp only [substOpUses, makeProjOp, List.map_cons, List.map_nil]
      rw [hPnewRes j hj, hsubfresh (fv + j) (Nat.le_add_right fv j)]
    · simp only [substOpUses, makeProjOp]
      simp only [List.map_append, List.map_cons, List.map_nil]
      rw [hmapno pd (fun v hv => hdomres v (hpddom v hv)), hsubno r hrres]
    · simp [substOpUses, makeProjOp]
    · simp [substOpUses, makeProjOp]
  · intro m hm hmne
    by_cases hmlt : m < opIdx
    · refine ⟨prog.ops.get ⟨m, hm⟩, by simp, ?_⟩
      rw [if_pos hmlt, hmapped]
      rw [getElem?_mid_before ((prog.ops.take opIdx).map (substOpUses P.sub)) (substOpUses P.sub P.newOp) (P.projOps.map (substOpUses P.sub)) ((prog.ops.drop (opIdx + 1)).map (substOpUses P.sub)) m (by rw [hTlen]; omega)]
      rw [List.getElem?_map, List.getElem?_take, if_pos hmlt, ← hPsub,
        List.getElem?_eq_getElem hm]
      rfl
    · have hgt : opIdx < m := by omega
      refine ⟨prog.ops.get ⟨m, hm⟩, by simp, ?_⟩
      rw [if_neg hmlt, hmapped]
      rw [getElem?_mid_after_eq ((prog.ops.take opIdx).map (substOpUses P.sub)) (substOpUses P.sub P.newOp) (P.projOps.map (substOpUses P.sub)) ((prog.ops.drop (opIdx + 1)).map (substOpUses P.sub)) (m + NR) (m - opIdx - 1)
        (by rw [hTlen, hBlen]; omega)]
      rw [List.getElem?_map, List.getElem?_drop]
      have hidx : opIdx + 1 + (m - opIdx - 1) = m := by omega
      rw [hidx, ← hPsub, List.getElem?_eq_getElem hm]
      rfl
  · intro j hj
    exact substValue_fresh_pair op.resultIds (fv + NR) NR j (by omega) hj hnd
  · intro v hv
    have := hsubno v hv
    rwa [hPsub] at this
  · intro q2 hq2
    rw [hmapped] at hq2
    rcases List.mem_append.mp hq2 with h2 | h2
    · rcases List.mem_append.mp h2 with h3 | h3
      · obtain ⟨q, hq, hq2eq⟩ := List.mem_map.mp h3
        have : q2.opId = q.opId := by rw [← hq2eq]; simp [substOpUses]
        rw [this]
        exact opId_ne_of_before prog.ops opIdx op q hidnd hq hdropmem
      · rcases List.mem_cons.mp h3 with h4 | h4
        · have : q2.opId = fo := by rw [h4]; simpa [substOpUses] using hPnewOpId
          rw [this]
          have := hops op hopmem
          omega
        · obtain ⟨p, hp, hq2eq⟩ := List.mem_map.mp h4
          rw [hPprojs] at hp
          obtain ⟨i, hi, hpeq⟩ := List.mem_map.mp hp
          have : q2.opId = fo + 1 + i := by
            rw [← hq2eq, ← hpeq]; simp [substOpUses, makeProjOp]
          rw [this]
          have := hops op hopmem
          omega
    · obtain ⟨q, hq, hq2eq⟩ := List.mem_map.mp h2
      have : q2.opId = q.opId := by rw [← hq2eq]; simp [substOpUses]
      rw [this]
      exact opId_ne_of_after prog.ops (opIdx + 1) op q hidnd hq htakemem

/-- Witness for C1 on a concrete program: a pending copy and its consumer. -/
theorem C1_basic_rematerialization_witness :
    exC1Prog.ops[0]? = some exC1Op ∧
    (exC1Op.kind = OpKind.copy ∨ exC1Op.kind = OpKind.map ∨
      exC1Op.kind = OpKind.mapReduce) ∧
    exC1Op.loopNest = some ([⟨"a", Iter.concrete 0 1⟩] ++ ⟨"i", Iter.remat⟩ :: []) ∧
    lookupBounds exC1MainLoops "i" = some ⟨7, 1, []⟩ ∧
    (∃ pd newOp,
      ParallelDomain exC1Op = some pd ∧
      (Rematerialize exC1MainLoops exC1Prog 0).1 = none ∧
      (Rematerialize exC1MainLoops exC1Prog 0).2.ops[0]? = some newOp ∧
      newOp.domain = pd ++ 7 :: exC1Op.domain.drop pd.length ∧
      (∃ nest', newOp.loopNest = some nest' ∧
        nest'[([⟨"a", Iter.concrete 0 1⟩] : List LoopAttr).length]? =
          some ⟨"i", Iter.concrete pd.length 1⟩) ∧
      (∀ j, j < exC1Op.resultTypes.length → ∃ projOp,
        (Rematerialize exC1MainLoops exC1Prog 0).2.ops[0 + 1 + j]? = some projOp ∧
        projOp.kind = OpKind.projAny ∧
        projOp.resultTypes = [exC1Op.resultTypes.getD j dfltValueType] ∧
        projOp.operands = [newOp.resultIds.getD j 0] ∧
        projOp.domain = pd ++ [7] ∧
        projOp.parallelRank = pd.length ∧
        projOp.resultIds = [exC1Prog.nextVal + exC1Op.resultTypes.length + j]) ∧
      (∀ m, m < exC1Prog.ops.length → m ≠ 0 → ∃ q,
        exC1Prog.ops[m]? = some q ∧
        (Rematerialize exC1MainLoops exC1Prog 0).2.ops[if m < 0 then m
          else m + exC1Op.resultTypes.length]? = some
          (substOpUses ((List.range exC1Op.resultTypes.length).map (fun j =>
            (exC1Op.resultIds.getD j 0,
              exC1Prog.nextVal + exC1Op.resultTypes.length + j))) q)) ∧
      (∀ j, j < exC1Op.resultTypes.length →
        substValue ((List.range exC1Op.resultTypes.length).map (fun i =>
            (exC1Op.resultIds.getD i 0,
              exC1Prog.nextVal + exC1Op.resultTypes.length + i)))
          (exC1Op.resultIds.getD j 0)
          = exC1Prog.nextVal + exC1Op.resultTypes.length + j) ∧
      (∀ v, v ∉ exC1Op.resultIds →
        substValue ((List.range exC1Op.resultTypes.length).map (fun i =>
            (exC1Op.resultIds.getD i 0,
              exC1Prog.nextVal + exC1Op.resultTypes.length + i))) v = v) ∧
      (∀ q2 ∈ (Rematerialize exC1MainLoops exC1Prog 0).2.ops,
        q2.opId ≠ exC1Op.opId)) :=
  ⟨by decide, by decide, by decide, by decide,
    C1_basic_rematerialization exC1MainLoops exC1Prog 0 exC1Op
      [⟨"a", Iter.concrete 0 1⟩] [] "i" 7
      (by decide) (by decide) (by decide) (by decide) (by decide) (by decide)
      (by decide) (by decide) (by decide) (by decide) (by decide) (by decide)
      (by decide) (by decide) (by decide)⟩

theorem mapM_loop_isSome {α β : Type} (f : α → Option β) (l : List α)
    (h : ∀ x ∈ l, (f x).isSome) :
    ∀ acc : List β, (List.mapM.loop f l acc).isSome := by
  induction l with
  | nil => intro acc; simp [List.mapM.loop]
  | cons a as ih =>
    intro acc
    obtain ⟨b, hb⟩ := Option.isSome_iff_exists.mp (h a (List.mem_cons_self _ _))
    simp only [List.mapM.loop, hb, Option.bind_eq_bind, Option.some_bind]
    exact ih (fun x hx => h x (List.mem_cons_of_mem _ hx)) (b :: acc)

theorem mapM_isSome_of_all {α β : Type} (f : α → Option β) (l : List α)
    (h : ∀ x ∈ l, (f x).isSome) : (l.mapM f).isSome :=
  mapM_loop_isSome f l h []

theorem mapM_loop_length {α β : Type} (f : α → Option β) (l : List α) :
    ∀ (acc : List β) (out : List β), List.mapM.loop f l acc = some out →
      out.length = l.length + acc.length := by
  induction l with
  | nil =>
    intro acc out h
    simp [List.mapM.loop] at h
    simp [← h]
  | cons a as ih =>
    intro acc out h
    cases hb : f a with
    | none => simp [List.mapM.loop, hb] at h
    | some b =>
      simp only [List.mapM.loop, hb, Option.bind_eq_bind, Option.some_bind] at h
      have := ih (b :: acc) out h
      simp at this
      simp [this]
      omega

theorem mapM_length_of_some {α β : Type} (f : α → Option β) (l : List α)
    (out : List β) (h : l.mapM f = some out) : out.length = l.length := by
  have := mapM_loop_length f l [] out h
  simpa using this

theorem rematPositionsFrom_mem (nest : List LoopAttr) :
    ∀ (n : Nat) (i : Nat), i ∈ rematPositionsFrom nest n →
      ∃ j l, i = n + j ∧ nest[j]? = some l ∧ l.iter.rematFlag = true := by
  induction nest with
  | nil => intro n i hi; simp [rematPositionsFrom] at hi
  | cons hd rest ih =>
    intro n i hi
    by_cases hhd : hd.iter.rematFlag = true
    · simp only [rematPositionsFrom, hhd, if_true] at hi
      rcases List.mem_cons.mp hi with hi | hi
      · exact ⟨0, hd, by omega, by simp, hhd⟩
      · obtain ⟨j, l, hij, hjl, hfl⟩ := ih (n + 1) i hi
        exact ⟨j + 1, l, by omega, by simpa using hjl, hfl⟩
    · simp only [Bool.not_eq_true] at hhd
      simp only [rematPositionsFrom, hhd, Bool.false_eq_true, if_false] at hi
      obtain ⟨j, l, hij, hjl, hfl⟩ := ih (n + 1) i hi
      exact ⟨j + 1, l, by omega, by simpa using hjl, hfl⟩

theorem rematPositions_mem (nest : List LoopAttr) (i : Nat)
    (hi : i ∈ rematPositions nest) :
    ∃ l, nest[i]? = some l ∧ l.iter.rematFlag = true := by
  obtain ⟨j, l, hij, hjl, hfl⟩ := rematPositionsFrom_mem nest 0 i hi
  have : i = j := by omega
  subst this
  exact ⟨l, hjl, hfl⟩

theorem Iter.eq_remat_of_flag (it : Iter) (h : it.rematFlag = true) : it = .remat := by
  cases it with
  | remat => rfl
  | concrete d s => simp [Iter.rematFlag] at h

/-! ### C6: domain-shape rebuilding (corrected: the trailing range type is
replaced by the common inner range type, not kept) -/

/-- Counterexample to C6 as stated: on a concrete map-reduce operation whose
reduction dimension has a non-hyper-rectangular range type, the rebuilt
trailing descriptor does not keep its shape with only the dependency indices
shifted — its range type is replaced by the common hyper-rectangular inner
range type of the full new rank. -/
theorem C6_trailing_descriptor_counterexample :
    ((Rematerialize exC6MainLoops exC6Prog 0).2.ops.getD 0 exC6Op).shape.getD 2 dfltShapeDim
      ≠ ⟨(exC6Op.shape.getD 1 dfltShapeDim).rangeTy,
         (exC6Op.shape.getD 1 dfltShapeDim).depPattern.shiftRight 1 1⟩ ∧
    ((Rematerialize exC6MainLoops exC6Prog 0).2.ops.getD 0 exC6Op).shape.getD 2 dfltShapeDim
      = ⟨SRangeType.hyperRect 3,
         (exC6Op.shape.getD 1 dfltShapeDim).depPattern.shiftRight 1 1⟩ := by
  decide

/-- C6 (amended): in the rebuilt domain shape of a rematerialized operation,
the parallel-dimension descriptors are unchanged, and each trailing
non-parallel descriptor keeps its dependency pattern with the dependency
indices shifted right by the number of inserted dimensions, while its range
type is replaced by the common hyper-rectangular inner range type of the full
new rank. -/
theorem C6_domain_shape_rebuilding (ml : MainLoops) (op : Op) (fo : Nat) (fv : Value)
    (pd : List Value)
    (hk : op.kind = OpKind.copy ∨ op.kind = OpKind.map ∨ op.kind = OpKind.mapReduce)
    (hpd : ParallelDomain op = some pd)
    (hshlen : pd.length ≤ op.shape.length)
    (hlk : ∀ l ∈ op.loopNestLoops, l.iter.rematFlag = true →
      (lookupBounds ml l.name).isSome)
    (hdeps : ∀ l ∈ op.loopNestLoops, l.iter.rematFlag = true →
      ∀ b, lookupBounds ml l.name = some b →
        ∀ dep ∈ b.dependentOn, ∃ l' ∈ op.loopNestLoops, l'.name = dep) :
    ∃ P, rematPieces ml op fo fv = .ok P ∧
      (∀ u, u < pd.length → P.domainShape[u]? = op.shape[u]?) ∧
      (∀ t, P.domainShape[pd.length + (rematPositions op.loopNestLoops).length + t]?
        = (op.shape[pd.length + t]?).map (fun dim =>
            (⟨SRangeType.hyperRect
                (op.shape.length + (rematPositions op.loopNestLoops).length),
              dim.depPattern.shiftRight (rematPositions op.loopNestLoops).length
                pd.length⟩ : DomainShapeDim))) := by
  obtain ⟨⟨newNest, extras⟩, hrb⟩ := Option.isSome_iff_exists.mp
    (rebuildLoopNest_isSome ml pd.length (rematPositions op.loopNestLoops).length
      op.loopNestLoops pd.length hlk)
  have hms : ∀ li ∈ rematPositions op.loopNestLoops,
      (rematShapeDim ml newNest (SRangeType.hyperRect
        (op.shape.length + (rematPositions op.loopNestLoops).length)) li).isSome := by
    intro li hli
    obtain ⟨l, hl, hfl⟩ := rematPositions_mem _ li hli
    have hiterm : l.iter = .remat := Iter.eq_remat_of_flag _ hfl
    obtain ⟨b, hb, hentry⟩ := rebuildLoopNest_remat_entry ml pd.length
      (rematPositions op.loopNestLoops).length op.loopNestLoops pd.length newNest extras
      hrb li l hl hiterm
    have hdepsl := hdeps l (mem_of_getElem?_some _ _ _ hl) hfl b hb
    have hdepall : ∀ dep ∈ b.dependentOn,
        (((newNest.find? (fun attr => attr.name == dep)).map
          (fun attr => attr.iter.dimension))).isSome := by
      intro dep hdep
      obtain ⟨l', hl', hname⟩ := hdepsl dep hdep
      obtain ⟨j, hj⟩ := List.get_of_mem hl'
      have hj' : op.loopNestLoops[j.1]? = some l' := by
        rw [List.getElem?_eq_getElem j.2]
        simpa using congrArg some hj
      obtain ⟨l3, hl3, hl3name⟩ := rebuildLoopNest_names ml pd.length
        (rematPositions op.loopNestLoops).length op.loopNestLoops pd.length newNest extras
        hrb j.1 l' hj'
      have hfind : (List.find? (fun attr => attr.name == dep) newNest).isSome := by
        rw [List.find?_isSome]
        exact ⟨l3, mem_of_getElem?_some _ _ _ hl3, by simp [hl3name, hname]⟩
      obtain ⟨x, hx⟩ := Option.isSome_iff_exists.mp hfind
      simp [hx]
    obtain ⟨ds, hds⟩ := Option.isSome_iff_exists.mp (mapM_isSome_of_all _ _ hdepall)
    have hds' : List.mapM.loop (fun dependee =>
        Option.map (fun attr => attr.iter.dimension)
          (List.find? (fun attr => attr.name == dependee) newNest)) b.dependentOn []
        = some ds := hds
    simp [rematShapeDim, hentry, hb, hds']
  obtain ⟨rds, hrd⟩ := Option.isSome_iff_exists.mp (mapM_isSome_of_all _ _ hms)
  have hrdlen : rds.length = (rematPositions op.loopNestLoops).length :=
    mapM_length_of_some _ _ _ hrd
  have hpieces := rematPieces_ok ml op fo fv pd newNest extras rds hk hpd hrb hrd
  have hAlen : (op.shape.take pd.length).length = pd.length := by
    simp [List.length_take]
    omega
  refine ⟨_, hpieces, ?_, ?_⟩
  · intro u hu
    simp only [piecesFormula]
    rw [List.getElem?_append_left (by rw [List.length_append, hAlen]; omega),
      List.getElem?_append_left (by rw [hAlen]; omega),
      List.getElem?_take, if_pos hu]
  · intro t
    simp only [piecesFormula]
    rw [List.getElem?_append_right (by rw [List.length_append, hAlen, hrdlen]; omega)]
    have hidx : pd.length + (rematPositions op.loopNestLoops).length + t -
        (op.shape.take pd.length ++ rds).length = t := by
      rw [List.length_append, hAlen, hrdlen]
      omega
    rw [hidx]
    simp only [shiftedTrailingDims, List.getElem?_map, List.getElem?_drop]

/-- Witness for the amended C6 on the concrete map-reduce operation. -/
theorem C6_domain_shape_rebuilding_witness :
    (exC6Op.kind = OpKind.copy ∨ exC6Op.kind = OpKind.map ∨
      exC6Op.kind = OpKind.mapReduce) ∧
    ParallelDomain exC6Op = some [5] ∧
    (∃ P, rematPieces exC6MainLoops exC6Op 10 100 = .ok P ∧
      (∀ u, u < ([5] : List Value).length → P.domainShape[u]? = exC6Op.shape[u]?) ∧
      (∀ t, P.domainShape[([5] : List Value).length +
          (rematPositions exC6Op.loopNestLoops).length + t]?
        = (exC6Op.shape[([5] : List Value).length + t]?).map (fun dim =>
            (⟨SRangeType.hyperRect
                (exC6Op.shape.length + (rematPositions exC6Op.loopNestLoops).length),
              dim.depPattern.shiftRight (rematPositions exC6Op.loopNestLoops).length
                ([5] : List Value).length⟩ : DomainShapeDim)))) :=
  ⟨by decide, by decide,
    C6_domain_shape_rebuilding exC6MainLoops exC6Op 10 100 [5]
      (by decide) (by decide) (by decide) (by decide) (by decide)⟩

theorem find?_eq_some_of_first {α : Type} (p : α → Bool) (l : List α) :
    ∀ (k : Nat) (x : α), l[k]? = some x → p x = true →
      (∀ i, i < k → ∀ y, l[i]? = some y → p y = false) →
      l.find? p = some x := by
  induction l with
  | nil => intro k x hk _ _; simp at hk
  | cons a as ih =>
    intro k x hk hx hbefore
    cases k with
    | zero =>
      simp only [List.getElem?_cons_zero, Option.some.injEq] at hk
      subst hk
      rw [List.find?_cons_of_pos _ hx]
    | succ j =>
      have ha : p a = false := hbefore 0 (by omega) a (by simp)
      rw [List.find?_cons_of_neg _ (by simp [ha])]
      exact ih j x (by simpa using hk) hx
        (fun i hi y hy => hbefore (i + 1) (by omega) y (by simpa using hy))

/-! ### C4: dependent rematerialized loops -/

/-- C4: when loops `i` and `j` are both pending on the same operation and
`j`'s recorded bounds declare a (sole) dependency on `i`, after the rewrite
`i` occupies position `P` (the parallel boundary) and `j` occupies `P + 1` in
the rebuilt loop nest, and the shape descriptor of `j`'s inserted dimension
has exactly one dependency, referencing position `P`: dependency names are
resolved to the dependee's position in the updated loop nest. -/
theorem C4_dependent_pending_loops
    (ml : MainLoops) (op : Op) (fo : Nat) (fv : Value) (pd : List Value)
    (pre mid post : List LoopAttr) (iN jN : String) (ri rj : Value) (si sj : Int)
    (hk : op.kind = OpKind.copy ∨ op.kind = OpKind.map ∨ op.kind = OpKind.mapReduce)
    (hpd : ParallelDomain op = some pd)
    (hnest : op.loopNest =
      some (pre ++ ⟨iN, Iter.remat⟩ :: (mid ++ ⟨jN, Iter.remat⟩ :: post)))
    (hpre : ∀ l ∈ pre, l.iter.rematFlag = false)
    (hmid : ∀ l ∈ mid, l.iter.rematFlag = false)
    (hpost : ∀ l ∈ post, l.iter.rematFlag = false)
    (hbi : lookupBounds ml iN = some ⟨ri, si, []⟩)
    (hbj : lookupBounds ml jN = some ⟨rj, sj, [iN]⟩)
    (hprename : ∀ l ∈ pre, l.name ≠ iN)
    (hshlen : pd.length ≤ op.shape.length) :
    ∃ P newNest,
      rematPieces ml op fo fv = .ok P ∧
      P.newOp.loopNest = some newNest ∧
      newNest[pre.length]? = some ⟨iN, Iter.concrete pd.length si⟩ ∧
      newNest[pre.length + 1 + mid.length]? =
        some ⟨jN, Iter.concrete (pd.length + 1) sj⟩ ∧
      P.domainShape[pd.length + 1]? =
        some ⟨SRangeType.hyperRect (op.shape.length + 2),
          ⟨pd.length + 1, [pd.length]⟩⟩ := by
  have hnl : op.loopNestLoops =
      pre ++ ⟨iN, Iter.remat⟩ :: (mid ++ ⟨jN, Iter.remat⟩ :: post) := by
    simp [Op.loopNestLoops, hnest]
  have hloops2 : rematPositions op.loopNestLoops
      = [pre.length, pre.length + 1 + mid.length] := by
    rw [hnl]
    unfold rematPositions
    rw [rematPositionsFrom_append_concrete pre hpre 0]
    simp only [rematPositionsFrom, Iter.rematFlag, if_true]
    rw [rematPositionsFrom_append_concrete mid hmid]
    simp only [rematPositionsFrom, Iter.rematFlag, if_true]
    rw [rematPositionsFrom_concrete post hpost]
    simp
  have hlk : ∀ l ∈ op.loopNestLoops, l.iter.rematFlag = true →
      (lookupBounds ml l.name).isSome := by
    rw [hnl]
    intro l hl hfl
    rcases List.mem_append.mp hl with hl | hl
    · exact absurd hfl (by simp [hpre l hl])
    · rcases List.mem_cons.mp hl with hl | hl
      · subst hl; simp [hbi]
      · rcases List.mem_append.mp hl with hl | hl
        · exact absurd hfl (by simp [hmid l hl])
        · rcases List.mem_cons.mp hl with hl | hl
          · subst hl; simp [hbj]
          · exact absurd hfl (by simp [hpost l hl])
  obtain ⟨⟨newNest, extras⟩, hrb⟩ := Option.isSome_iff_exists.mp
    (rebuildLoopNest_isSome ml pd.length (rematPositions op.loopNestLoops).length
      op.loopNestLoops pd.length hlk)
  -- the `i` entry
  have hmidi : op.loopNestLoops[pre.length]? = some ⟨iN, Iter.remat⟩ := by
    rw [hnl, List.getElem?_append_right le_rfl]
    simp
  obtain ⟨bi, hbi', henti⟩ := rebuildLoopNest_remat_entry ml pd.length
    (rematPositions op.loopNestLoops).length op.loopNestLoops pd.length newNest extras
    hrb pre.length ⟨iN, Iter.remat⟩ hmidi rfl
  have hbi2 : lookupBounds ml iN = some bi := hbi'
  rw [hbi] at hbi2
  injection hbi2 with hbi2
  subst hbi2
  have hcounti : ((op.loopNestLoops).take pre.length).countP
      (fun x => x.iter.rematFlag) = 0 := by
    rw [hnl, List.take_left]
    exact countP_remat_pre pre hpre
  rw [hcounti] at henti
  have henti' : newNest[pre.length]? = some ⟨iN, Iter.concrete pd.length si⟩ := by
    simpa using henti
  -- the `j` entry
  have hsplit : op.loopNestLoops =
      (pre ++ ⟨iN, Iter.remat⟩ :: mid) ++ ⟨jN, Iter.remat⟩ :: post := by
    rw [hnl]
    simp
  have hlen2 : (pre ++ ⟨iN, Iter.remat⟩ :: mid).length = pre.length + 1 + mid.length := by
    simp
    omega
  have hmidj : op.loopNestLoops[pre.length + 1 + mid.length]? =
      some ⟨jN, Iter.remat⟩ := by
    rw [hsplit, List.getElem?_append_right (by omega : (pre ++ ⟨iN, Iter.remat⟩ :: mid).length ≤ pre.length + 1 + mid.length)]
    rw [hlen2]
    simp
  obtain ⟨bj, hbj', hentj⟩ := rebuildLoopNest_remat_entry ml pd.length
    (rematPositions op.loopNestLoops).length op.loopNestLoops pd.length newNest extras
    hrb (pre.length + 1 + mid.length) ⟨jN, Iter.remat⟩ hmidj rfl
  have hbj2 : lookupBounds ml jN = some bj := hbj'
  rw [hbj] at hbj2
  injection hbj2 with hbj2
  subst hbj2
  have hcountj : ((op.loopNestLoops).take (pre.length + 1 + mid.length)).countP
      (fun x => x.iter.rematFlag) = 1 := by
    rw [hsplit, List.take_left' hlen2]
    rw [List.countP_append, List.countP_cons, countP_remat_pre pre hpre,
      countP_remat_pre mid hmid]
    simp [Iter.rematFlag]
  rw [hcountj] at hentj
  have hentj' : newNest[pre.length + 1 + mid.length]? =
      some ⟨jN, Iter.concrete (pd.length + 1) sj⟩ := by
    simpa using hentj
  -- resolving the dependency of `j` on `i`
  have hprenames : ∀ i, i < pre.length → ∀ y, newNest[i]? = some y →
      (y.name == iN) = false := by
    intro i hi y hy
    have hni : op.loopNestLoops[i]? = some (pre.get ⟨i, hi⟩) := by
      rw [hnl, List.getElem?_append_left hi, List.getElem?_eq_getElem hi]
      simp
    obtain ⟨l3, hl3, hl3name⟩ := rebuildLoopNest_names ml pd.length
      (rematPositions op.loopNestLoops).length op.loopNestLoops pd.length newNest extras
      hrb i _ hni
    rw [hy] at hl3
    injection hl3 with hl3
    subst hl3
    have hne := hprename (pre.get ⟨i, hi⟩) (List.get_mem pre i hi)
    simp only [hl3name]
    simpa using hne
  have hfind : newNest.find? (fun attr => attr.name == iN)
      = some ⟨iN, Iter.concrete pd.length si⟩ :=
    find?_eq_some_of_first _ newNest pre.length _ henti' (by simp) hprenames
  -- the two rematerialized shape dimensions
  have hshapei : ∀ ty, rematShapeDim ml newNest ty pre.length
      = some ⟨ty, ⟨pd.length, []⟩⟩ := by
    intro ty
    simp [rematShapeDim, henti', hbi, Iter.dimension, List.mapM.loop]
  have hshapej : ∀ ty, rematShapeDim ml newNest ty (pre.length + 1 + mid.length)
      = some ⟨ty, ⟨pd.length + 1, [pd.length]⟩⟩ := by
    intro ty
    simp [rematShapeDim, hentj', hbj, Iter.dimension, List.mapM.loop, hfind]
  have hrd : (rematPositions op.loopNestLoops).mapM
      (rematShapeDim ml newNest (SRangeType.hyperRect
        (op.shape.length + (rematPositions op.loopNestLoops).length)))
      = some [⟨SRangeType.hyperRect
            (op.shape.length + (rematPositions op.loopNestLoops).length),
          ⟨pd.length, []⟩⟩,
        ⟨SRangeType.hyperRect
            (op.shape.length + (rematPositions op.loopNestLoops).length),
          ⟨pd.length + 1, [pd.length]⟩⟩] := by
    rw [hloops2]
    simp [List.mapM.loop, hshapei, hshapej]
  have hpieces := rematPieces_ok ml op fo fv pd newNest extras _ hk hpd hrb hrd
  have hK2 : (rematPositions op.loopNestLoops).length = 2 := by rw [hloops2]; rfl
  have hAlen : (op.shape.take pd.length).length = pd.length := by
    simp [List.length_take]
    omega
  refine ⟨_, newNest, hpieces, ?_, henti', hentj', ?_⟩
  · rcases hk with hk2 | hk2 | hk2 <;>
      simp [piecesFormula, hk2, recreateCopy, recreateMap, recreateMapReduce]
  · simp only [piecesFormula]
    rw [List.getElem?_append_left (by
      rw [List.length_append, hAlen]
      simp)]
    rw [List.getElem?_append_right (by rw [hAlen]; omega)]
    rw [hK2]
    have hone : pd.length + 1 - (op.shape.take pd.length).length = 1 := by
      rw [hAlen]; omega
    rw [hone]
    simp

/-- Witness for C4 on a concrete map operation with pending `i` and `j`,
where `j` depends on `i`. -/
theorem C4_dependent_pending_loops_witness :
    (exC4Op.kind = OpKind.copy ∨ exC4Op.kind = OpKind.map ∨
      exC4Op.kind = OpKind.mapReduce) ∧
    lookupBounds exC4MainLoops "j" = some ⟨8, 1, ["i"]⟩ ∧
    (∃ P newNest,
      rematPieces exC4MainLoops exC4Op 10 100 = .ok P ∧
      P.newOp.loopNest = some newNest ∧
      newNest[([] : List LoopAttr).length]? =
        some ⟨"i", Iter.concrete ([] : List Value).length 1⟩ ∧
      newNest[([] : List LoopAttr).length + 1 + ([] : List LoopAttr).length]? =
        some ⟨"j", Iter.concrete (([] : List Value).length + 1) 1⟩ ∧
      P.domainShape[([] : List Value).length + 1]? =
        some ⟨SRangeType.hyperRect (exC4Op.shape.length + 2),
          ⟨([] : List Value).length + 1, [([] : List Value).length]⟩⟩) :=
  ⟨by decide, by decide,
    C4_dependent_pending_loops exC4MainLoops exC4Op 10 100 [] [] [] [] "i" "j" 7 8 1 1
      (by decide) (by decide) (by decide) (by decide) (by decide) (by decide)
      (by decide) (by decide) (by decide) (by decide)⟩

/-! ### C2: unsupported operation kinds fail cleanly, before any mutation -/

/-- C2: for a pending operation whose kind is outside `{copy, map, map-reduce}`,
`Rematerialize` fails with `UnsupportedOperationKind`, and the failure occurs
before any destructive mutation: the program (hence the operation, its body,
its results and their uses) is returned exactly as it was. -/
theorem C2_unsupported_kind_fails_without_mutation
    (ml : MainLoops) (prog : Program) (opIdx : Nat) (op : Op)
    (hop : prog.ops[opIdx]? = some op)
    (hc : op.kind ≠ OpKind.copy) (hm : op.kind ≠ OpKind.map)
    (hmr : op.kind ≠ OpKind.mapReduce) :
    Rematerialize ml prog opIdx = (some RematError.unsupportedOpKind, prog) := by
  have hpd : ParallelDomain op = none := by
    cases hk : op.kind
    · exact absurd hk hc
    · exact absurd hk hm
    · exact absurd hk hmr
    · simp [ParallelDomain, hk]
    · simp [ParallelDomain, hk]
    · simp [ParallelDomain, hk]
  have hrp : rematPieces ml op prog.nextOpId prog.nextVal
      = .error RematError.unsupportedOpKind := by
    simp [rematPieces, hpd]
  simp [Rematerialize, hop, hrp]

/-- Witness for C2 on a concrete pending operation of an unsupported kind. -/
theorem C2_unsupported_kind_witness :
    exProgUnsupported.ops[0]? = some exOpUnsupported ∧
    exOpUnsupported.kind ≠ OpKind.copy ∧
    exOpUnsupported.kind ≠ OpKind.map ∧
    exOpUnsupported.kind ≠ OpKind.mapReduce ∧
    Rematerialize [] exProgUnsupported 0 =
      (some RematError.unsupportedOpKind, exProgUnsupported) :=
  ⟨by decide, by decide, by decide, by decide,
    C2_unsupported_kind_fails_without_mutation [] exProgUnsupported 0 exOpUnsupported
      (by decide) (by decide) (by decide) (by decide)⟩

/-! ### C3: the collection walk records first occurrences and pending ops -/

theorem find?_append_one {α : Type} (p : α → Bool) (l : List α) (x : α) :
    (l ++ [x]).find? p =
      match l.find? p with
      | some y => some y
      | none => if p x then some x else none := by
  induction l with
  | nil =>
    cases hp : p x <;> simp [List.find?, hp]
  | cons hd tl ih =>
    by_cases h : p hd = true
    · rw [List.cons_append, List.find?_cons_of_pos _ h, List.find?_cons_of_pos _ h]
    · rw [List.cons_append, List.find?_cons_of_neg _ (by simpa using h),
        List.find?_cons_of_neg _ (by simpa using h), ih]

theorem tryEmplace_preserve (ml : MainLoops) (n : String) (b : LoopBounds)
    (name : String) (b0 : LoopBounds) (h : lookupBounds ml name = some b0) :
    lookupBounds (tryEmplace ml n b) name = some b0 := by
  by_cases hsome : (ml.find? (fun kv => kv.1 == n)).isSome = true
  · simpa [tryEmplace, hsome] using h
  · simp only [tryEmplace, hsome, Bool.false_eq_true, if_false]
    unfold lookupBounds at h ⊢
    rw [find?_append_one]
    cases hf : ml.find? (fun kv => kv.1 == name) with
    | none => rw [hf] at h; simp at h
    | some y => rw [hf] at h; simpa using h

theorem tryEmplace_new_same (ml : MainLoops) (b : LoopBounds) (name : String)
    (h : lookupBounds ml name = none) :
    lookupBounds (tryEmplace ml name b) name = some b := by
  have hf : ml.find? (fun kv => kv.1 == name) = none := by
    unfold lookupBounds at h
    cases hf : ml.find? (fun kv => kv.1 == name) with
    | none => rfl
    | some y => rw [hf] at h; simp at h
  simp only [tryEmplace, hf, Option.isSome_none, Bool.false_eq_true, if_false]
  unfold lookupBounds
  rw [find?_append_one, hf]
  simp

theorem tryEmplace_new_other (ml : MainLoops) (n : String) (b : LoopBounds)
    (name : String) (h : lookupBounds ml name = none) (hne : n ≠ name) :
    lookupBounds (tryEmplace ml n b) name = none := by
  have hf : ml.find? (fun kv => kv.1 == name) = none := by
    unfold lookupBounds at h
    cases hf : ml.find? (fun kv => kv.1 == name) with
    | none => rfl
    | some y => rw [hf] at h; simp at h
  by_cases hsome : (ml.find? (fun kv => kv.1 == n)).isSome = true
  · simpa [tryEmplace, hsome] using h
  · simp only [tryEmplace, hsome, Bool.false_eq_true, if_false]
    unfold lookupBounds
    rw [find?_append_one, hf]
    simp [hne]

theorem collectEntry_fst_preserve (op : Op) (nest : List LoopAttr) (name : String)
    (b0 : LoopBounds) :
    ∀ (entries : List LoopAttr) (st : MainLoops × List Nat),
      lookupBounds st.1 name = some b0 →
      lookupBounds ((entries.foldl (collectEntry op nest) st)).1 name = some b0 := by
  intro entries
  induction entries with
  | nil => intro st h; simpa using h
  | cons l rest ih =>
    intro st h
    rw [List.foldl_cons]
    apply ih
    by_cases hfl : l.iter.rematFlag = true
    · simpa [collectEntry, hfl] using h
    · simp only [Bool.not_eq_true] at hfl
      simp only [collectEntry, hfl, Bool.false_eq_true, if_false]
      exact tryEmplace_preserve _ _ _ _ _ h

theorem collectFromOp_fst_preserve (name : String) (b0 : LoopBounds) :
    ∀ (ops : List Op) (st : MainLoops × List Nat),
      lookupBounds st.1 name = some b0 →
      lookupBounds ((ops.foldl collectFromOp st)).1 name = some b0 := by
  intro ops
  induction ops with
  | nil => intro st h; simpa using h
  | cons op rest ih =>
    intro st h
    rw [List.foldl_cons]
    apply ih
    by_cases hc : isComputeOp op.kind = true
    · cases hn : op.loopNest with
      | none => simpa [collectFromOp, hc, hn] using h
      | some nest =>
        simp only [collectFromOp, hc, if_true, hn]
        exact collectEntry_fst_preserve op nest name b0 nest st h
    · simp only [Bool.not_eq_true] at hc
      simpa [collectFromOp, hc] using h

theorem collectEntry_fst_new (op : Op) (nest : List LoopAttr) (name : String) :
    ∀ (entries : List LoopAttr) (st : MainLoops × List Nat),
      lookupBounds st.1 name = none →
      lookupBounds ((entries.foldl (collectEntry op nest) st)).1 name
        = firstConcreteBoundsInNest op nest name entries := by
  intro entries
  induction entries with
  | nil => intro st h; simpa [firstConcreteBoundsInNest] using h
  | cons l rest ih =>
    intro st h
    rw [List.foldl_cons]
    by_cases hfl : l.iter.rematFlag = true
    · rw [firstConcreteBoundsInNest]
      simp only [hfl, if_true]
      apply ih
      simpa [collectEntry, hfl] using h
    · simp only [Bool.not_eq_true] at hfl
      rw [firstConcreteBoundsInNest]
      simp only [hfl, Bool.false_eq_true, if_false]
      by_cases hname : (l.name == name) = true
      · have hname' : l.name = name := by simpa using hname
        simp only [hname, if_true]
        subst hname'
        apply collectEntry_fst_preserve
        simp only [collectEntry, hfl, Bool.false_eq_true, if_false]
        exact tryEmplace_new_same st.1 (entryBounds op nest l) l.name h
      · simp only [hname, Bool.false_eq_true, if_false]
        apply ih
        simp only [collectEntry, hfl, Bool.false_eq_true, if_false]
        exact tryEmplace_new_other st.1 l.name (entryBounds op nest l) name h
          (by simpa using hname)

theorem collectFromOp_fst_new (name : String) :
    ∀ (ops : List Op) (st : MainLoops × List Nat),
      lookupBounds st.1 name = none →
      lookupBounds ((ops.foldl collectFromOp st)).1 name = specFirstBounds ops name := by
  intro ops
  induction ops with
  | nil => intro st h; simpa [specFirstBounds] using h
  | cons op rest ih =>
    intro st h
    rw [List.foldl_cons, specFirstBounds]
    by_cases hc : isComputeOp op.kind = true
    · cases hn : op.loopNest with
      | none =>
        simp only [hc, if_true, hn]
        apply ih
        simpa [collectFromOp, hc, hn] using h
      | some nest =>
        simp only [hc, if_true, hn]
        have hstep : lookupBounds ((collectFromOp st op)).1 name
            = firstConcreteBoundsInNest op nest name nest := by
          simp only [collectFromOp, hc, if_true, hn]
          exact collectEntry_fst_new op nest name nest st h
        cases hfc : firstConcreteBoundsInNest op nest name nest with
        | some b =>
          rw [hfc] at hstep
          exact collectFromOp_fst_preserve name b rest _ hstep
        | none =>
          rw [hfc] at hstep
          exact ih _ hstep
    · simp only [Bool.not_eq_true] at hc
      simp only [hc, Bool.false_eq_true, if_false]
      apply ih
      simpa [collectFromOp, hc] using h

theorem pendingInsert_mem (s : List Nat) (o x : Nat) :
    x ∈ pendingInsert s o ↔ x ∈ s ∨ x = o := by
  unfold pendingInsert
  by_cases h : o ∈ s
  · simp only [h, if_true]
    constructor
    · exact fun hx => Or.inl hx
    · rintro (hx | hx)
      · exact hx
      · exact hx ▸ h
  · simp [h]

theorem pendingInsert_nodup (s : List Nat) (o : Nat) (h : s.Nodup) :
    (pendingInsert s o).Nodup := by
  unfold pendingInsert
  by_cases ho : o ∈ s
  · simpa [ho]
  · rw [if_neg ho]
    exact List.Nodup.append h (List.nodup_singleton o)
      (fun a ha hb => ho (by rwa [List.mem_singleton.mp hb] at ha))

theorem collectEntry_snd (op : Op) (nest : List LoopAttr) (x : Nat) :
    ∀ (entries : List LoopAttr) (st : MainLoops × List Nat),
      (x ∈ ((entries.foldl (collectEntry op nest) st)).2 ↔
        x ∈ st.2 ∨ (x = op.opId ∧ ∃ l ∈ entries, l.iter.rematFlag = true)) ∧
      (st.2.Nodup → ((entries.foldl (collectEntry op nest) st)).2.Nodup) := by
  intro entries
  induction entries with
  | nil =>
    intro st
    constructor
    · simp
    · exact fun h => h
  | cons l rest ih =>
    intro st
    by_cases hfl : l.iter.rematFlag = true
    · constructor
      · rw [List.foldl_cons]
        rw [(ih (collectEntry op nest st l)).1]
        simp only [collectEntry, hfl, if_true]
        rw [pendingInsert_mem]
        constructor
        · rintro ((hx | hx) | ⟨hx, l', hl', hfl'⟩)
          · exact Or.inl hx
          · exact Or.inr ⟨hx, l, List.mem_cons_self _ _, hfl⟩
          · exact Or.inr ⟨hx, l', List.mem_cons_of_mem _ hl', hfl'⟩
        · rintro (hx | ⟨hx, l', hl', hfl'⟩)
          · exact Or.inl (Or.inl hx)
          · exact Or.inl (Or.inr hx)
      · intro hnd
        rw [List.foldl_cons]
        apply (ih (collectEntry op nest st l)).2
        simp only [collectEntry, hfl, if_true]
        exact pendingInsert_nodup _ _ hnd
    · simp only [Bool.not_eq_true] at hfl
      constructor
      · rw [List.foldl_cons]
        rw [(ih (collectEntry op nest st l)).1]
        simp only [collectEntry, hfl, Bool.false_eq_true, if_false]
        constructor
        · rintro (hx | ⟨hx, l', hl', hfl'⟩)
          · exact Or.inl hx
          · exact Or.inr ⟨hx, l', List.mem_cons_of_mem _ hl', hfl'⟩
        · rintro (hx | ⟨hx, l', hl', hfl'⟩)
          · exact Or.inl hx
          · rcases List.mem_cons.mp hl' with h1 | h1
            · subst h1; rw [hfl] at hfl'; cases hfl'
            · exact Or.inr ⟨hx, l', h1, hfl'⟩
      · intro hnd
        rw [List.foldl_cons]
        apply (ih (collectEntry op nest st l)).2
        simpa [collectEntry, hfl] using hnd

theorem collectFromOp_snd (x : Nat) :
    ∀ (ops : List Op) (st : MainLoops × List Nat),
      (x ∈ ((ops.foldl collectFromOp st)).2 ↔
        x ∈ st.2 ∨ ∃ op ∈ ops, op.opId = x ∧ isComputeOp op.kind = true ∧
          ∃ nest, op.loopNest = some nest ∧ ∃ l ∈ nest, l.iter.rematFlag = true) ∧
      (st.2.Nodup → ((ops.foldl collectFromOp st)).2.Nodup) := by
  intro ops
  induction ops with
  | nil =>
    intro st
    constructor
    · simp
    · exact fun h => h
  | cons op rest ih =>
    intro st
    have hstep : ∀ st' : MainLoops × List Nat,
        (x ∈ (collectFromOp st' op).2 ↔ x ∈ st'.2 ∨
          (op.opId = x ∧ isComputeOp op.kind = true ∧
            ∃ nest, op.loopNest = some nest ∧ ∃ l ∈ nest, l.iter.rematFlag = true)) ∧
        (st'.2.Nodup → (collectFromOp st' op).2.Nodup) := by
      intro st'
      by_cases hc : isComputeOp op.kind = true
      · cases hn : op.loopNest with
        | none =>
          constructor
          · simp only [collectFromOp, hc, if_true, hn]
            constructor
            · exact fun hx => Or.inl hx
            · rintro (hx | ⟨_, _, nest, hnest, _⟩)
              · exact hx
              · cases hnest
          · intro hnd; simpa [collectFromOp, hc, hn] using hnd
        | some nest =>
          constructor
          · simp only [collectFromOp, hc, if_true, hn]
            rw [(collectEntry_snd op nest x nest st').1]
            constructor
            · rintro (hx | ⟨hx, l', hl', hfl'⟩)
              · exact Or.inl hx
              · exact Or.inr ⟨hx.symm, trivial, nest, rfl, l', hl', hfl'⟩
            · rintro (hx | ⟨hx, _, nest', hnest', l', hl', hfl'⟩)
              · exact Or.inl hx
              · injection hnest' with hnest'
                subst hnest'
                exact Or.inr ⟨hx.symm, l', hl', hfl'⟩
          · intro hnd
            simp only [collectFromOp, hc, if_true, hn]
            exact (collectEntry_snd op nest x nest st').2 hnd
      · simp only [Bool.not_eq_true] at hc
        constructor
        · simp only [collectFromOp, hc, Bool.false_eq_true, if_false]
          constructor
          · exact fun hx => Or.inl hx
          · rintro (hx | ⟨_, hcomp, _⟩)
            · exact hx
            · simp at hcomp
        · intro hnd; simpa [collectFromOp, hc] using hnd
    constructor
    · rw [List.foldl_cons, (ih (collectFromOp st op)).1, (hstep st).1]
      constructor
      · rintro ((hx | hx) | ⟨op', hop', rest'⟩)
        · exact Or.inl hx
        · exact Or.inr ⟨op, List.mem_cons_self _ _, hx⟩
        · exact Or.inr ⟨op', List.mem_cons_of_mem _ hop', rest'⟩
      · rintro (hx | ⟨op', hop', hrest⟩)
        · exact Or.inl (Or.inl hx)
        · rcases List.mem_cons.mp hop' with h1 | h1
          · subst h1; exact Or.inl (Or.inr hrest)
          · exact Or.inr ⟨op', h1, hrest⟩
    · intro hnd
      rw [List.foldl_cons]
      exact (ih (collectFromOp st op)).2 ((hstep st).2 hnd)

/-- C3: the loop-bounds collection pass is total; for every logical loop name
it records the bounds from the first concrete occurrence in program order
(later concrete occurrences never overwrite them), and the pending set
contains exactly (once each, deduplicated by identity) the compute operations
having at least one rematerialization-marked loop-nest entry. -/
theorem C3_collection_walk (ops : List Op) :
    (∀ name, lookupBounds (collectLoopBounds ops).1 name = specFirstBounds ops name) ∧
    (∀ opid, opid ∈ (collectLoopBounds ops).2 ↔ ∃ op ∈ ops, op.opId = opid ∧
      isComputeOp op.kind = true ∧ ∃ nest, op.loopNest = some nest ∧
        ∃ l ∈ nest, l.iter.rematFlag = true) ∧
    (collectLoopBounds ops).2.Nodup := by
  refine ⟨?_, ?_, ?_⟩
  · intro name
    exact collectFromOp_fst_new name ops ([], []) (by simp [lookupBounds])
  · intro opid
    rw [collectLoopBounds, (collectFromOp_snd opid ops ([], [])).1]
    simp
  · exact (collectFromOp_snd 0 ops ([], [])).2 (by simp)

/-! ### C7: Create fails exactly on non-feedback use-def cycles -/

theorem peelStep_sublist (g : UDGraph) (s : List Nat) : (peelStep g s).Sublist s :=
  List.filter_sublist s

theorem peelStep_eq_of_length (g : UDGraph) (s : List Nat)
    (h : (peelStep g s).length = s.length) : peelStep g s = s :=
  (peelStep_sublist g s).eq_of_length h

theorem peel_fixpoint (g : UDGraph) :
    ∀ (fuel : Nat) (s : List Nat), s.length ≤ fuel →
      peelStep g (peel g fuel s) = peel g fuel s := by
  intro fuel
  induction fuel with
  | zero =>
    intro s hs
    have hnil : s = [] := List.length_eq_zero.mp (Nat.le_zero.mp hs)
    subst hnil
    simp [peel, peelStep]
  | succ n ih =>
    intro s hs
    simp only [peel]
    by_cases h : (peelStep g s).length = s.length
    · rw [if_pos h]
      exact peelStep_eq_of_length g s h
    · rw [if_neg h]
      apply ih
      have h1 : (peelStep g s).length ≤ s.length := (peelStep_sublist g s).length_le
      omega

theorem getLastD_mem (l : List Nat) : ∀ d : Nat, l ≠ [] → l.getLastD d ∈ l := by
  induction l with
  | nil => intro d h; exact absurd rfl h
  | cons a t ih =>
    intro d _
    cases t with
    | nil => simp
    | cons b t' =>
      have h := ih a (by simp)
      rw [show (a :: b :: t').getLastD d = (b :: t').getLastD a from rfl]
      exact List.mem_cons_of_mem a h

theorem getLastD_append_single (l : List Nat) (a : Nat) :
    ∀ d : Nat, (l ++ [a]).getLastD d = a := by
  induction l with
  | nil => intro d; rfl
  | cons b t ih =>
    intro d
    rw [List.cons_append, List.getLastD_cons]
    exact ih b

theorem cycle_pred (g : UDGraph) (p : List Nat) (hc : g.IsCycle p) :
    ∀ v ∈ p, ∃ u ∈ p, g.depB u v = true := by
  obtain ⟨hne, hchain, hclose⟩ := hc
  intro v hv
  obtain ⟨i, hi, hiv⟩ := List.mem_iff_getElem.mp hv
  cases i with
  | zero =>
    refine ⟨p.getLastD 0, getLastD_mem p 0 hne, ?_⟩
    have hhead : p.headD 0 = v := by
      cases p with
      | nil => exact absurd rfl hne
      | cons a l => simpa using hiv
    rwa [hhead] at hclose
  | succ k =>
    have hk : k < p.length - 1 := by omega
    refine ⟨p[k], List.getElem_mem (by omega), ?_⟩
    have hstep := List.chain'_iff_get.mp hchain k hk
    rw [← hiv]
    simpa using hstep

theorem depB_mem_nodes (g : UDGraph)
    (hwf : ∀ e ∈ g.edges, e.feedback = false → e.src ∈ g.nodes ∧ e.dst ∈ g.nodes)
    (u v : Nat) (h : g.depB u v = true) : u ∈ g.nodes ∧ v ∈ g.nodes := by
  unfold UDGraph.depB at h
  obtain ⟨e, he, hprop⟩ := List.any_eq_true.mp h
  simp only [Bool.and_eq_true, Bool.not_eq_true', beq_iff_eq] at hprop
  obtain ⟨⟨hf, hs⟩, hd⟩ := hprop
  obtain ⟨h2, h3⟩ := hwf e he hf
  exact ⟨hs ▸ h2, hd ▸ h3⟩

theorem cycle_mem_nodes (g : UDGraph) (p : List Nat) (hc : g.IsCycle p)
    (hwf : ∀ e ∈ g.edges, e.feedback = false → e.src ∈ g.nodes ∧ e.dst ∈ g.nodes) :
    ∀ v ∈ p, v ∈ g.nodes := by
  intro v hv
  obtain ⟨u, _, hdep⟩ := cycle_pred g p hc v hv
  exact (depB_mem_nodes g hwf u v hdep).2

theorem peelStep_keeps_cycle (g : UDGraph) (p : List Nat) (hc : g.IsCycle p)
    (s : List Nat) (hsub : ∀ v ∈ p, v ∈ s) : ∀ v ∈ p, v ∈ peelStep g s := by
  intro v hv
  obtain ⟨u, hu, hdep⟩ := cycle_pred g p hc v hv
  unfold peelStep
  rw [List.mem_filter]
  exact ⟨hsub v hv, List.any_eq_true.mpr ⟨u, hsub u hu, hdep⟩⟩

theorem peel_keeps_cycle (g : UDGraph) (p : List Nat) (hc : g.IsCycle p) :
    ∀ (fuel : Nat) (s : List Nat), (∀ v ∈ p, v ∈ s) → ∀ v ∈ p, v ∈ peel g fuel s := by
  intro fuel
  induction fuel with
  | zero => intro s hsub; simpa [peel] using hsub
  | succ n ih =>
    intro s hsub
    simp only [peel]
    by_cases h : (peelStep g s).length = s.length
    · rw [if_pos h]
      exact hsub
    · rw [if_neg h]
      exact ih (peelStep g s) (peelStep_keeps_cycle g p hc s hsub)

theorem predIn_spec (g : UDGraph) (r : List Nat) (v : Nat)
    (h : ∃ u ∈ r, g.depB u v = true) :
    predIn g r v ∈ r ∧ g.depB (predIn g r v) v = true := by
  obtain ⟨u, hu, hdep⟩ := h
  unfold predIn
  cases hf : r.find? (fun u => g.depB u v) with
  | none =>
    exfalso
    have := List.find?_eq_none.mp hf u hu
    simp [hdep] at this
  | some w =>
    refine ⟨List.mem_of_find?_eq_some hf, ?_⟩
    simpa using List.find?_some hf

theorem walkBack_mem (g : UDGraph) (r : List Nat)
    (hpred : ∀ v ∈ r, ∃ u ∈ r, g.depB u v = true) (v0 : Nat) (h0 : v0 ∈ r) :
    ∀ n, walkBack g r v0 n ∈ r := by
  intro n
  induction n with
  | zero => exact h0
  | succ m ih => exact (predIn_spec g r _ (hpred _ ih)).1

theorem walkBack_step (g : UDGraph) (r : List Nat)
    (hpred : ∀ v ∈ r, ∃ u ∈ r, g.depB u v = true) (v0 : Nat) (h0 : v0 ∈ r) :
    ∀ n, g.depB (walkBack g r v0 (n + 1)) (walkBack g r v0 n) = true := by
  intro n
  exact (predIn_spec g r _ (hpred _ (walkBack_mem g r hpred v0 h0 n))).2

theorem walk_cycle (g : UDGraph) (f : Nat → Nat)
    (hstep : ∀ n, g.depB (f (n + 1)) (f n) = true)
    (i j : Nat) (hij : i < j) (heq : f i = f j) : ∃ p, g.IsCycle p := by
  refine ⟨(List.range (j - i)).map (fun t => f (j - t)), ?_, ?_, ?_⟩
  · intro h
    rw [List.map_eq_nil_iff, List.range_eq_nil] at h
    omega
  · rw [List.chain'_map]
    obtain ⟨n, hn⟩ : ∃ n, j - i = n + 1 := ⟨j - i - 1, by omega⟩
    rw [hn, List.chain'_range_succ]
    intro m hm
    have hrw : j - m = (j - (m + 1)) + 1 := by omega
    rw [hrw]
    exact hstep (j - (m + 1))
  · obtain ⟨n, hn⟩ : ∃ n, j - i = n + 1 := ⟨j - i - 1, by omega⟩
    have hhead : ((List.range (j - i)).map (fun t => f (j - t))).headD 0 = f j := by
      rw [hn, List.range_succ_eq_map]
      simp
    have hlast : ((List.range (j - i)).map (fun t => f (j - t))).getLastD 0
        = f (i + 1) := by
      rw [hn, List.range_succ, List.map_append]
      simp only [List.map_cons, List.map_nil]
      rw [getLastD_append_single]
      have : j - n = i + 1 := by omega
      simp [this]
    rw [hhead, hlast, ← heq]
    exact hstep i

theorem fixpoint_cycle (g : UDGraph) (r : List Nat) (hfix : peelStep g r = r)
    (hne : r ≠ []) : ∃ p, g.IsCycle p := by
  have hpred : ∀ v ∈ r, ∃ u ∈ r, g.depB u v = true := by
    intro v hv
    have hv' : v ∈ peelStep g r := by rw [hfix]; exact hv
    unfold peelStep at hv'
    rw [List.mem_filter] at hv'
    obtain ⟨-, hany⟩ := hv'
    obtain ⟨u, hu, hdep⟩ := List.any_eq_true.mp hany
    exact ⟨u, hu, by simpa using hdep⟩
  obtain ⟨v0, hv0⟩ := List.exists_mem_of_ne_nil r hne
  have hmem := walkBack_mem g r hpred v0 hv0
  have hstep := walkBack_step g r hpred v0 hv0
  have hcard : r.toFinset.card < (Finset.range (r.length + 1)).card := by
    rw [Finset.card_range]
    exact Nat.lt_succ_of_le (List.toFinset_card_le r)
  obtain ⟨x, hx, y, hy, hxy, hfeq⟩ :=
    Finset.exists_ne_map_eq_of_card_lt_of_maps_to hcard
      (fun a _ => List.mem_toFinset.mpr (hmem a))
  rcases Nat.lt_or_ge x y with h | h
  · exact walk_cycle g (walkBack g r v0) hstep x y h hfeq
  · have hyx : y < x := by omega
    exact walk_cycle g (walkBack g r v0) hstep y x hyx hfeq.symm

/-- C7: on a use-def graph whose non-feedback edges stay within the node
set, `SequenceAnalysis::Create` returns no analysis exactly when the use-def
graph restricted to non-feedback dependencies has a cycle; feedback edges —
a feedback operation reading its own earlier iteration — are exempt and
never cause the failure. -/
theorem C7_create_fails_iff_cycle (g : UDGraph)
    (hwf : ∀ e ∈ g.edges, e.feedback = false → e.src ∈ g.nodes ∧ e.dst ∈ g.nodes) :
    SequenceAnalysis.create g = none ↔ ∃ p, g.IsCycle p := by
  unfold SequenceAnalysis.create
  constructor
  · intro h
    by_cases hp : peel g g.nodes.length g.nodes = []
    · rw [if_pos hp] at h
      exact absurd h (by simp)
    · exact fixpoint_cycle g _
        (peel_fixpoint g g.nodes.length g.nodes le_rfl) hp
  · rintro ⟨p, hc⟩
    obtain ⟨v0, hv0⟩ := List.exists_mem_of_ne_nil p hc.1
    have hin : v0 ∈ peel g g.nodes.length g.nodes :=
      peel_keeps_cycle g p hc g.nodes.length g.nodes
        (cycle_mem_nodes g p hc hwf) v0 hv0
    have hne : peel g g.nodes.length g.nodes ≠ [] := by
      intro h
      rw [h] at hin
      exact absurd hin (List.not_mem_nil v0)
    rw [if_neg hne]

/-- Witness for C7 on a two-node graph whose non-feedback edges form a
cycle. -/
theorem C7_create_fails_iff_cycle_witness :
    (∀ e ∈ (UDGraph.mk [1, 2] [⟨1, 2, false⟩, ⟨2, 1, false⟩]).edges,
      e.feedback = false →
        e.src ∈ (UDGraph.mk [1, 2] [⟨1, 2, false⟩, ⟨2, 1, false⟩]).nodes ∧
        e.dst ∈ (UDGraph.mk [1, 2] [⟨1, 2, false⟩, ⟨2, 1, false⟩]).nodes) ∧
    (SequenceAnalysis.create (UDGraph.mk [1, 2] [⟨1, 2, false⟩, ⟨2, 1, false⟩]) = none ↔
      ∃ p, (UDGraph.mk [1, 2] [⟨1, 2, false⟩, ⟨2, 1, false⟩]).IsCycle p) :=
  ⟨by decide,
    C7_create_fails_iff_cycle (UDGraph.mk [1, 2] [⟨1, 2, false⟩, ⟨2, 1, false⟩])
      (by decide)⟩

/-! ### C8: AssignInferred is idempotent -/

/-- C8: `AssignInferred` rewrites every operation's stored hint to its
current contiguous position without changing relative order and without
touching the (const) analysis: calling it twice in succession yields the very
same state — in particular identical explicit hints both times — and the
`AllOps` iteration order is unchanged by either call. -/
theorem C8_assignInferred_idempotent (st : SeqState) (implicitAfter : Nat → List Nat) :
    AssignInferred (AssignInferred st) = AssignInferred st ∧
    (AssignInferred (AssignInferred st)).prog.map (fun sop => sop.hint)
      = (AssignInferred st).prog.map (fun sop => sop.hint) ∧
    allOpsOrder (AssignInferred st).analysis implicitAfter
      = allOpsOrder st.analysis implicitAfter := by
  have hidem : AssignInferred (AssignInferred st) = AssignInferred st := by
    unfold AssignInferred
    simp only [List.map_map]
    congr 1
    apply List.map_congr_left
    intro sop _
    cases hf : st.analysis.findSequencedOp sop.opId <;>
      simp [Function.comp, hf]
  exact ⟨hidem, by rw [hidem], rfl⟩

/-! ### C9: neighbor lookup in the ordered index -/

theorem findOpIndex_eq (l : List (Int × Nat)) :
    ∀ (o : Nat) (base i : Nat) (k : Int), l[i]? = some (k, o) →
      (∀ j, j < i → ∀ kv, l[j]? = some kv → kv.2 ≠ o) →
      findOpIndex l o base = some (base + i) := by
  induction l with
  | nil => intro o base i k hi _; simp at hi
  | cons kv rest ih =>
    intro o base i k hi hbefore
    cases i with
    | zero =>
      simp only [List.getElem?_cons_zero, Option.some.injEq] at hi
      rw [findOpIndex, if_pos (by simp [hi])]
      simp
    | succ j =>
      have hkv : kv.2 ≠ o := hbefore 0 (by omega) kv (by simp)
      rw [findOpIndex, if_neg (by simpa using hkv)]
      have := ih o (base + 1) j k (by simpa using hi)
        (fun j' hj' kv' hkv' => hbefore (j' + 1) (by omega) kv' (by simpa using hkv'))
      rw [this]
      congr 1
      omega

/-- C9: for an operation present in the analysis, `PrevOp` returns the
operation immediately preceding it in the agreed iteration order (empty when
it is the first entry), `NextOp` returns the immediately following operation
(empty when it is the last entry), and both return an empty result for a
null operation. -/
theorem C9_prev_next_neighbors (a : SequenceAnalysis) (i : Nat) (k : Int) (o : Nat)
    (hnd : (a.sequencedOps.map (fun kv => kv.2)).Nodup)
    (hi : a.sequencedOps[i]? = some (k, o)) :
    a.prevOp (some o)
      = (if i = 0 then none else (a.sequencedOps[i - 1]?).map (fun kv => kv.2)) ∧
    a.nextOp (some o) = (a.sequencedOps[i + 1]?).map (fun kv => kv.2) ∧
    a.prevOp none = none ∧ a.nextOp none = none := by
  have hilt : i < a.sequencedOps.length := (List.getElem?_eq_some.mp hi).1
  have hfirst : ∀ j, j < i → ∀ kv, a.sequencedOps[j]? = some kv → kv.2 ≠ o := by
    intro j hj kv hkv he
    have h1 : (a.sequencedOps.map (fun kv => kv.2))[j]? = some o := by
      rw [List.getElem?_map, hkv]
      simp [he]
    have h2 : (a.sequencedOps.map (fun kv => kv.2))[i]? = some o := by
      rw [List.getElem?_map, hi]
      rfl
    have hji : j = i := by
      apply List.getElem?_inj (by simpa using Nat.lt_trans hj hilt) hnd
      rw [h1, h2]
    omega
  have hfind : a.findSequencedOp o = some i := by
    unfold SequenceAnalysis.findSequencedOp
    simpa using findOpIndex_eq a.sequencedOps o 0 i k hi hfirst
  refine ⟨?_, ?_, rfl, rfl⟩
  · simp [SequenceAnalysis.prevOp, hfind]
  · simp [SequenceAnalysis.nextOp, hfind]

/-- Witness for C9 on a concrete three-entry analysis. -/
theorem C9_prev_next_neighbors_witness :
    ((SequenceAnalysis.mk [(0, 10), (1, 20), (2, 30)]).sequencedOps.map
      (fun kv => kv.2)).Nodup ∧
    (SequenceAnalysis.mk [(0, 10), (1, 20), (2, 30)]).sequencedOps[1]? = some (1, 20) ∧
    ((SequenceAnalysis.mk [(0, 10), (1, 20), (2, 30)]).prevOp (some 20)
      = (if 1 = 0 then none
        else ((SequenceAnalysis.mk [(0, 10), (1, 20), (2, 30)]).sequencedOps[1 - 1]?).map
          (fun kv => kv.2)) ∧
    (SequenceAnalysis.mk [(0, 10), (1, 20), (2, 30)]).nextOp (some 20)
      = ((SequenceAnalysis.mk [(0, 10), (1, 20), (2, 30)]).sequencedOps[1 + 1]?).map
          (fun kv => kv.2) ∧
    (SequenceAnalysis.mk [(0, 10), (1, 20), (2, 30)]).prevOp none = none ∧
    (SequenceAnalysis.mk [(0, 10), (1, 20), (2, 30)]).nextOp none = none) :=
  ⟨by decide, by decide,
    C9_prev_next_neighbors (SequenceAnalysis.mk [(0, 10), (1, 20), (2, 30)]) 1 1 20
      (by decide) (by decide)⟩

/-! ### C10: ConcreteOpSet keeps a duplicate-free, insertion-ordered set -/

theorem concreteOpSet_insert_nodup (s : ConcreteOpSet) (x : Nat)
    (h : s.contents.Nodup) : ((s.insert x).2).contents.Nodup := by
  unfold ConcreteOpSet.insert
  by_cases hx : x ∈ s.contents
  · simpa [hx]
  · rw [if_neg hx]
    exact List.Nodup.append h (List.nodup_singleton x)
      (fun a ha hb => hx (by rwa [List.mem_singleton.mp hb] at ha))

theorem ofList_fold_contents (l : List Nat) :
    ∀ acc : List Nat,
      ((l.foldl (fun s x => (ConcreteOpSet.insert s x).2) ⟨acc⟩)).contents
        = acc ++ firstOccurrenceDedup (l.filter (fun y => y ∉ acc)) := by
  induction l with
  | nil => intro acc; simp [firstOccurrenceDedup]
  | cons x xs ih =>
    intro acc
    rw [List.foldl_cons]
    by_cases hx : x ∈ acc
    · have hstep : (ConcreteOpSet.insert ⟨acc⟩ x).2 = ⟨acc⟩ := by
        simp [ConcreteOpSet.insert, hx]
      rw [hstep, ih acc, List.filter_cons]
      simp [hx]
    · have hstep : (ConcreteOpSet.insert ⟨acc⟩ x).2 = ⟨acc ++ [x]⟩ := by
        simp [ConcreteOpSet.insert, hx]
      rw [hstep, ih (acc ++ [x]), List.filter_cons]
      have hxd : decide (x ∉ acc) = true := by simpa using hx
      simp only [hxd, if_true]
      rw [firstOccurrenceDedup, List.append_assoc, List.singleton_append]
      congr 2
      rw [List.filter_filter]
      congr 1
      apply List.filter_congr
      intro y _
      simp only [List.mem_append, List.mem_singleton, not_or, decide_not]
      by_cases h1 : y ∈ acc <;> by_cases h2 : y = x <;> simp [h1, h2]

theorem ofList_fold_nodup (l : List Nat) :
    ∀ acc : List Nat, acc.Nodup →
      ((l.foldl (fun s x => (ConcreteOpSet.insert s x).2) ⟨acc⟩)).contents.Nodup := by
  induction l with
  | nil => intro acc h; simpa using h
  | cons x xs ih =>
    intro acc h
    rw [List.foldl_cons]
    by_cases hx : x ∈ acc
    · have hstep : (ConcreteOpSet.insert ⟨acc⟩ x).2 = ⟨acc⟩ := by
        simp [ConcreteOpSet.insert, hx]
      rw [hstep]
      exact ih acc h
    · have hstep : (ConcreteOpSet.insert ⟨acc⟩ x).2 = ⟨acc ++ [x]⟩ := by
        simp [ConcreteOpSet.insert, hx]
      rw [hstep]
      apply ih
      exact List.Nodup.append h (List.nodup_singleton x)
        (fun a ha hb => hx (by rwa [List.mem_singleton.mp hb] at ha))

/-- C10: `ConcreteOpSet` maintains a duplicate-free set in first-insertion
order: inserting a present element returns `false` and leaves the set (and
its order) unchanged; inserting a new element appends it; `Ops()` enumerates
exactly the distinct inserted elements in first-insertion order, without
duplicates; and `erase` removes only the given element, preserving the
relative order of the remaining ones. -/
theorem C10_concreteOpSet_invariants (s : ConcreteOpSet) (op : Nat) (l : List Nat)
    (hnd : s.contents.Nodup) :
    (op ∈ s.ops → s.insert op = (false, s)) ∧
    (op ∉ s.ops → s.insert op = (true, ⟨s.ops ++ [op]⟩)) ∧
    (ConcreteOpSet.ofList l).ops = firstOccurrenceDedup l ∧
    (ConcreteOpSet.ofList l).ops.Nodup ∧
    (s.erase op).ops.Sublist s.ops ∧
    (∀ x, x ∈ (s.erase op).ops ↔ x ∈ s.ops ∧ x ≠ op) := by
  refine ⟨?_, ?_, ?_, ?_, ?_, ?_⟩
  · intro h
    simp only [ConcreteOpSet.ops] at h
    simp [ConcreteOpSet.insert, h]
  · intro h
    simp only [ConcreteOpSet.ops] at h
    simp [ConcreteOpSet.insert, ConcreteOpSet.ops, h]
  · have := ofList_fold_contents l []
    simpa [ConcreteOpSet.ofList, ConcreteOpSet.ops] using this
  · have := ofList_fold_nodup l [] List.nodup_nil
    simpa [ConcreteOpSet.ofList, ConcreteOpSet.ops] using this
  · exact List.erase_sublist op s.contents
  · intro x
    unfold ConcreteOpSet.erase ConcreteOpSet.ops
    constructor
    · intro hx
      exact ⟨List.mem_of_mem_erase hx, (List.Nodup.mem_erase_iff hnd |>.mp hx).1⟩
    · rintro ⟨hx, hne⟩
      exact (List.Nodup.mem_erase_iff hnd).mpr ⟨hne, hx⟩

/-- Witness for C10 on a concrete set and insertion list. -/
theorem C10_concreteOpSet_invariants_witness :
    (ConcreteOpSet.mk [4, 7, 9]).contents.Nodup ∧
    ((7 ∈ (ConcreteOpSet.mk [4, 7, 9]).ops →
      (ConcreteOpSet.mk [4, 7, 9]).insert 7 = (false, ConcreteOpSet.mk [4, 7, 9])) ∧
    (7 ∉ (ConcreteOpSet.mk [4, 7, 9]).ops →
      (ConcreteOpSet.mk [4, 7, 9]).insert 7 =
        (true, ⟨(ConcreteOpSet.mk [4, 7, 9]).ops ++ [7]⟩)) ∧
    (ConcreteOpSet.ofList [1, 2, 1, 3, 2]).ops = firstOccurrenceDedup [1, 2, 1, 3, 2] ∧
    (ConcreteOpSet.ofList [1, 2, 1, 3, 2]).ops.Nodup ∧
    ((ConcreteOpSet.mk [4, 7, 9]).erase 7).ops.Sublist (ConcreteOpSet.mk [4, 7, 9]).ops ∧
    (∀ x, x ∈ ((ConcreteOpSet.mk [4, 7, 9]).erase 7).ops ↔
      x ∈ (ConcreteOpSet.mk [4, 7, 9]).ops ∧ x ≠ 7)) :=
  ⟨by decide,
    C10_concreteOpSet_invariants (ConcreteOpSet.mk [4, 7, 9]) 7 [1, 2, 1, 3, 2]
      (by decide)⟩

end Sair
